import Mathlib

/-!
Verification of the TabTab pinyin input-method engine.

This file gives a shallow embedding, in Lean, of the pure core of the
repository's Python sources:

* `dictionary_manager.py` — the `DictionaryManager` class (dictionary state,
  `lookup`, `get_word_frequency`, `get_candidates`, and the per-line
  registration logic of `load_dictionary`);
* `pinyin_engine.py` — the `PinyinEngine` class (`common_phrases`,
  `_get_word_score`, the dynamic-programming `segment`, `get_candidates`);
* `input_manager.py` — the session state of `InputManager`
  (`next_page`, `previous_page`, `show_current_page_candidates`,
  `select_candidate`, `reset_state`, `exit_ai_mode`);
* `ai_engine.py` — `AICompletionWorker._parse_completions` and the
  result-emission logic of `AICompletionWorker.run`.

Python dictionaries are modelled as association lists in insertion order
(which is exactly the iteration order of a Python `dict`); Python's stable
`list.sort(key=..., reverse=True)` is modelled by a stable insertion sort
descending on the key.  Mutation (the in-place sort that
`DictionaryManager.get_candidates` performs on a stored word list) is made
explicit by state passing.  External library calls (`pypinyin.pinyin`,
`ast.literal_eval`, the ollama client) are modelled as function parameters:
they are outside the repository, and every claim below is quantified over
their possible deterministic behaviours.
-/

namespace TabTab

/-! ### Python string primitives

Python's `str` operations used by the sources, modelled on `List Char`
(`String` in Lean is a wrapper around `List Char`; the built-in `String`
functions do not reduce inside the kernel, so the embedding defines its own
computable versions with Python's semantics). -/

/-- `s.startswith(q)` — `q.data` is a prefix of `s.data`. -/
def charsStartWith : List Char → List Char → Bool
  | _, [] => true
  | [], _ :: _ => false
  | c :: cs, d :: ds => c == d && charsStartWith cs ds

def pyStartsWith (s q : String) : Bool :=
  charsStartWith s.data q.data

def pyEndsWith (s q : String) : Bool :=
  charsStartWith s.data.reverse q.data.reverse

/-- `s.strip()` — remove leading and trailing whitespace. -/
def pyStrip (s : String) : String :=
  String.mk (((s.data.dropWhile Char.isWhitespace).reverse.dropWhile
    Char.isWhitespace).reverse)

/-- `s.strip(chars)` — remove leading and trailing characters from `chars`. -/
def pyStripChars (chars : List Char) (s : String) : String :=
  String.mk (((s.data.dropWhile (fun c => c ∈ chars)).reverse.dropWhile
    (fun c => c ∈ chars)).reverse)

/-- `s.replace(" ", "")` — drop every space. -/
def removeSpaces (s : String) : String :=
  String.mk (s.data.filter (fun c => c ≠ ' '))

/-- `s.split(sep)` for a one-character separator: no collapsing of empty
fields, `"".split(sep) == [""]`. -/
def splitChars (sep : Char) : List Char → List (List Char)
  | [] => [[]]
  | c :: cs =>
    let r := splitChars sep cs
    if c == sep then [] :: r
    else
      match r with
      | [] => [[c]]
      | f :: rest => (c :: f) :: rest

def pySplit (s : String) (sep : Char) : List String :=
  (splitChars sep s.data).map String.mk

/-! ### Python list.sort, modelled as a stable insertion sort

`pyIns` inserts `x` into an accumulator that is already sorted descending
by the key `σ`, placing `x` after all elements whose key is `≥ σ x`;
folding it from the left over a list therefore yields exactly the result of
Python's stable `list.sort(key=σ, reverse=True)`. -/

def pyIns {α : Type} (σ : α → Int) (x : α) : List α → List α
  | [] => [x]
  | z :: m => if σ x ≤ σ z then z :: pyIns σ x m else x :: z :: m

def pySortDesc {α : Type} (σ : α → Int) (l : List α) : List α :=
  l.foldl (fun acc x => pyIns σ x acc) []

/-! ### First-occurrence deduplication

Models the `seen`-set loop at the end of `PinyinEngine.get_candidates`:
an element is appended only if it has not occurred before. -/

def dedupFirst (l : List String) : List String :=
  l.foldl (fun acc c => if c ∈ acc then acc else acc ++ [c]) []

/-! ### Python dict assignment on association lists

`dictSet` models `d[k] = v` on a Python dict represented as an association
list in insertion order: an existing key keeps its position and gets the new
value, a fresh key is appended at the end. -/

def dictSet {κ ν : Type} [BEq κ] (l : List (κ × ν)) (k : κ) (v : ν) :
    List (κ × ν) :=
  if l.any (fun kv => kv.1 == k) then
    l.map (fun kv => if kv.1 == k then (k, v) else kv)
  else l ++ [(k, v)]

def dictFind? {κ ν : Type} [BEq κ] (l : List (κ × ν)) (k : κ) : Option ν :=
  (l.find? (fun kv => kv.1 == k)).map (fun kv => kv.2)

/-! ### DictionaryManager (dictionary_manager.py)

`word_dict` maps a romanized key to the list of surface words registered
under it, in registration order; `word_freq_dict` maps a (word, key) pair to
its recorded frequency. -/

structure DictionaryManager : Type where
  word_dict : List (String × List String)
  word_freq_dict : List ((String × String) × Int)

/-- `DictionaryManager.lookup`: `self.word_dict.get(pinyin_str)`. -/
def DictionaryManager.lookup (dm : DictionaryManager) (pinyin_str : String) :
    Option (List String) :=
  dictFind? dm.word_dict pinyin_str

/-- `DictionaryManager.get_word_frequency`:
`self.word_freq_dict.get((hanzi, pinyin), 1)`. -/
def DictionaryManager.get_word_frequency (dm : DictionaryManager)
    (hanzi pinyin : String) : Int :=
  (dictFind? dm.word_freq_dict (hanzi, pinyin)).getD 1

/-- The words currently registered under a key (empty when absent). -/
def DictionaryManager.wordsOf (dm : DictionaryManager) (pinyin : String) :
    List String :=
  (dm.lookup pinyin).getD []

/-- Replace the stored word list of one key (models the in-place
`exact_matches.sort(...)`, which mutates `self.word_dict[pinyin_str]`). -/
def DictionaryManager.setWords (dm : DictionaryManager) (pinyin : String)
    (l : List String) : DictionaryManager :=
  { dm with
    word_dict := dm.word_dict.map
      (fun kv => if kv.1 == pinyin then (kv.1, l) else kv) }

/-- `DictionaryManager.get_candidates` (lines 124–155).  Returns the
candidate list together with the updated manager: the exact-match branch
sorts `self.word_dict[pinyin_str]` in place by frequency (stable,
descending), a genuine mutation of the dictionary state which the embedding
makes explicit. -/
def DictionaryManager.get_candidates (dm : DictionaryManager)
    (pinyin_str : String) (max_count : Int) :
    List String × DictionaryManager :=
  match dm.lookup pinyin_str with
  | some exact_matches =>
    let sorted := pySortDesc
      (fun h => dm.get_word_frequency h pinyin_str) exact_matches
    let dm' := dm.setWords pinyin_str sorted
    let candidates := sorted
    let pfx_matches := dm'.word_dict.foldl
      (fun acc kv =>
        if pyStartsWith kv.1 pinyin_str then
          acc ++ (kv.2.filter (fun h => ¬ h ∈ candidates)).map
            (fun h => (h, dm'.get_word_frequency h kv.1))
        else acc) []
    let pfx_sorted := pySortDesc (fun hv => hv.2) pfx_matches
    let all := candidates ++ pfx_sorted.map (fun hv => hv.1)
    (if max_count > 0 then all.take max_count.toNat else all, dm')
  | none =>
    let pfx_matches := dm.word_dict.foldl
      (fun acc kv =>
        if pyStartsWith kv.1 pinyin_str then
          acc ++ (kv.2.filter (fun h => ¬ h ∈ ([] : List String))).map
            (fun h => (h, dm.get_word_frequency h kv.1))
        else acc) []
    let pfx_sorted := pySortDesc (fun hv => hv.2) pfx_matches
    let all := pfx_sorted.map (fun hv => hv.1)
    (if max_count > 0 then all.take max_count.toNat else all, dm)

/-! ### Dictionary loading (load_dictionary, lines 69–94)

A parsed body line registers `(key → word)` only when the word is not yet
present under that key, and records the frequency exactly at that first
registration.  `pyInt?` models Python's `int(...)` on the frequency field:
optional surrounding whitespace, an optional sign, then at least one digit
(the `try/except ValueError` of the source maps failure to `none`). -/

def digitsToNat (ds : List Char) : Nat :=
  ds.foldl (fun n c => n * 10 + (c.toNat - '0'.toNat)) 0

def pyInt? (s : String) : Option Int :=
  let t := pyStrip s
  match t.data with
  | '+' :: ds =>
    if ds ≠ [] ∧ ds.all (fun c => c.isDigit) then
      some ((digitsToNat ds : Int))
    else none
  | '-' :: ds =>
    if ds ≠ [] ∧ ds.all (fun c => c.isDigit) then
      some (-(digitsToNat ds : Int))
    else none
  | ds =>
    if ds ≠ [] ∧ ds.all (fun c => c.isDigit) then
      some ((digitsToNat ds : Int))
    else none

/-- Lines 88–94 of `load_dictionary`: register one parsed entry. -/
def DictionaryManager.registerEntry (dm : DictionaryManager)
    (hanzi pinyin : String) (freq : Int) : DictionaryManager :=
  let dm1 :=
    if (dictFind? dm.word_dict pinyin).isNone then
      { dm with word_dict := dictSet dm.word_dict pinyin [] }
    else dm
  if hanzi ∈ dm1.wordsOf pinyin then dm1
  else
    { dm1 with
      word_dict := dictSet dm1.word_dict pinyin
        (dm1.wordsOf pinyin ++ [hanzi]),
      word_freq_dict := dictSet dm1.word_freq_dict (hanzi, pinyin) freq }

/-- Lines 69–94 of `load_dictionary`: process one body line. -/
def DictionaryManager.processLine (dm : DictionaryManager) (line : String) :
    DictionaryManager :=
  let l := pyStrip line
  if l = "" ∨ pyStartsWith l "#" then dm
  else
    let parts := pySplit l '\t'
    if parts.length ≥ 2 then
      let hanzi := parts.getD 0 ""
      let pinyin_with_spaces := parts.getD 1 ""
      let pinyin := removeSpaces pinyin_with_spaces
      let freq : Int :=
        if parts.length ≥ 3 then (pyInt? (parts.getD 2 "")).getD 1 else 1
      dm.registerEntry hanzi pinyin freq
    else dm

/-- The body-line loop of `load_dictionary` over a list of lines. -/
def DictionaryManager.loadLines (dm : DictionaryManager)
    (lines : List String) : DictionaryManager :=
  lines.foldl (fun d line => d.processLine line) dm

/-! ### PinyinEngine (pinyin_engine.py)

`common_phrases` and `common_mappings` transcribe the dict literals of the
source (`PinyinEngine.__init__` and `get_candidates` step 5).  The Python
literals contain some repeated keys; per Python dict semantics the entry
keeps its first position and the last assigned value, and the association
lists below hold exactly the resulting dict contents. -/

def common_phrases : List (String × List String) := [
  ("nihao", ["你好", "您好", "你好啊"]),
  ("xiexie", ["谢谢", "感谢", "谢了"]),
  ("duibuqi", ["对不起", "抱歉", "不好意思"]),
  ("meiguanxi", ["没关系", "没事", "不要紧"]),
  ("shenme", ["什么", "啥", "什么东西"]),
  ("zenme", ["怎么", "怎样", "怎么办"]),
  ("weishenme", ["为什么", "为啥", "怎么会"]),
  ("zaijianshuo", ["再见", "拜拜", "下次见"]),
  ("qingwen", ["请问", "麻烦问一下", "想问一下"]),
  ("keyi", ["可以", "可行", "能够"]),
  ("bukeyi", ["不可以", "不行", "不能"]),
  ("xiangyao", ["想要", "需要", "希望"]),
  ("buxiang", ["不想", "不愿意", "不想做"]),
  ("meiyou", ["没有", "没", "无"]),
  ("youmeiyou", ["有没有", "有吗", "是不是有"]),
  ("shiyong", ["使用", "用", "运用"]),
  ("bangzhu", ["帮助", "协助", "支援"]),
  ("jiushi", ["就是", "正是", "便是"]),
  ("bushi", ["不是", "并非", "并不是"]),
  ("keyong", ["可用", "能用", "管用"]),
  ("buneng", ["不能", "无法", "不可"]),
  ("yiding", ["一定", "必定", "肯定"]),
  ("buke", ["不可", "不行", "不可以"]),
  ("zenmeyang", ["怎么样", "如何", "怎样"]),
  ("kaolv", ["考虑", "思考", "思索"]),
  ("jueding", ["决定", "确定", "选定"]),
  ("xihuan", ["喜欢", "喜爱", "爱好"]),
  ("buxihuan", ["不喜欢", "讨厌", "厌恶"]),
  ("jintian", ["今天", "当日", "这天"]),
  ("mingtian", ["明天", "明日", "第二天"]),
  ("zuotian", ["昨天", "昨日", "前一天"]),
  ("xianzai", ["现在", "目前", "此刻"]),
  ("yihou", ["以后", "之后", "随后"]),
  ("yiqian", ["以前", "之前", "从前"]),
  ("shangban", ["上班", "工作", "上班时间"]),
  ("xiaban", ["下班", "收工", "下班时间"]),
  ("chifan", ["吃饭", "用餐", "就餐"]),
  ("shuijiao", ["睡觉", "睡眠", "休息"]),
  ("qichuang", ["起床", "起来", "起床时间"]),
  ("shangche", ["上车", "乘车", "登车"]),
  ("xiache", ["下车", "落地", "抵达"]),
  ("kaishi", ["开始", "启动", "着手"]),
  ("jieshu", ["结束", "完结", "终止"]),
  ("jixu", ["继续", "接着", "延续"]),
  ("tingzhi", ["停止", "停下", "终止"]),
  ("zhiding", ["制定", "制订", "拟定"]),
  ("zhixing", ["执行", "实施", "实行"]),
  ("wancheng", ["完成", "达成", "实现"]),
  ("jinxing", ["进行", "开展", "展开"]),
  ("fabu", ["发布", "公布", "发表"]),
  ("shouji", ["收集", "搜集", "采集"]),
  ("fenxi", ["分析", "解析", "剖析"]),
  ("jieshi", ["解释", "说明", "阐述"]),
  ("biaoda", ["表达", "表述", "表示"]),
  ("qingqiu", ["请求", "要求", "申请"]),
  ("tongyi", ["同意", "答应", "许可"]),
  ("jvju", ["拒绝", "回绝", "谢绝"]),
  ("lianjie", ["联系", "联络", "沟通"]),
  ("huifu", ["恢复", "还原", "复原"]),
  ("fasong", ["发送", "传送", "发出"]),
  ("jieshou", ["接收", "接受", "收受"]),
  ("bianji", ["编辑", "编排", "编纂"]),
  ("shanchu", ["删除", "去掉", "清除"]),
  ("chakan", ["查看", "查阅", "浏览"]),
  ("sousuo", ["搜索", "查找", "检索"]),
  ("xiugai", ["修改", "更改", "变更"]),
  ("baocun", ["保存", "储存", "存储"]),
  ("daoru", ["导入", "引进", "引入"]),
  ("daochu", ["导出", "输出", "引出"]),
  ("shangchuan", ["上传", "上载", "传送"]),
  ("xiazai", ["下载", "获取", "取得"]),
  ("anzhuang", ["安装", "装配", "装置"]),
  ("xiezai", ["卸载", "移除", "删除"]),
  ("qidong", ["启动", "开启", "打开"]),
  ("guanbi", ["关闭", " shut down", "关掉"]),
  ("chongqi", ["重启", "重新启动", "重新开机"]),
  ("shuaxin", ["刷新", "更新", "重载"]),
  ("tiaozheng", ["调整", "调节", "校准"]),
  ("shezhi", ["设置", "设定", "配置"]),
  ("jiancha", ["检查", "检测", "查验"]),
  ("ceshi", ["测试", "检验", "试验"]),
  ("xiufu", ["修复", "修理", "修补"]),
  ("gengxin", ["更新", "升级", "刷新"]),
  ("beifen", ["备份", "副本", "拷贝"]),
  ("huanyuan", ["还原", "恢复", "复原"]),
  ("qingchu", ["清除", "清理", "清洁"]),
  ("zhongzhi", ["终止", "中止", "停止"]),
  ("quxiao", ["取消", "撤销", "废除"]),
  ("queren", ["确认", "确定", "核实"]),
  ("tijiao", ["提交", "递交", "呈交"]),
  ("fanhui", ["返回", "回去", "回退"]),
  ("zhuanhuan", ["转换", "转化", "变换"]),
  ("bianhuan", ["变化", "改变", "变动"]),
  ("tongzhi", ["通知", "告知", "通告"]),
  ("tixing", ["提醒", "通知", "预警"]),
  ("jilu", ["记录", "纪录", "记载"]),
  ("chaxun", ["查询", "查问", "查访"]),
  ("fenxiang", ["分享", "共享", "分发"]),
  ("shoucang", ["收藏", "珍藏", "保存"]),
  ("pinglun", ["评论", "评价", "点评"]),
  ("dianzan", ["点赞", "赞", "支持"]),
  ("zhuanfa", ["转发", "转播", "传播"]),
  ("guanzhu", ["关注", "关心", "留意"]),
  ("quguan", ["取关", "取消关注", "不再关注"]),
  ("liaotian", ["聊天", "交谈", "对话"]),
  ("tuichu", ["退出", "登出", "注销"]),
  ("denglu", ["登录", "登入", "登陆"]),
  ("zhuce", ["注册", "开户", "建立"]),
  ("wangji", ["忘记", "遗忘", "忘掉"]),
  ("chongzhi", ["重置", "复位", "恢复默认"]),
  ("genggai", ["更改", "改变", "变更"]),
  ("tongji", ["统计", "汇总", "计算"]),
  ("fenlei", ["分类", "归类", "划分"]),
  ("shaixuan", ["筛选", "过滤", "挑选"]),
  ("paixu", ["排序", "排列", "整理"]),
  ("yulan", ["预览", "预观", "先行观看"]),
  ("dayin", ["打印", "印刷", "输出"]),
  ("faxian", ["发现", "发觉", "找到"]),
  ("jiansuo", ["检索", "搜索", "查找"]),
  ("dingwei", ["定位", "确定位置", "锁定"]),
  ("daohang", ["导航", "引领", "指引"]),
  ("ditu", ["地图", "图示", "地形图"]),
  ("luxian", ["路线", "路径", "道路"]),
  ("juli", ["距离", "间距", "长度"]),
  ("shijian", ["时间", "时刻", "时段"]),
  ("didian", ["地点", "场所", "位置"]),
  ("dizhi", ["地址", "住址", "所在地"]),
  ("weizhi", ["位置", "地点", "方位"]),
  ("zuobiao", ["坐标", "座标", "定位点"]),
  ("fangxiang", ["方向", "方位", "指向"]),
  ("nanfang", ["南方", "南部", "南边"]),
  ("beifang", ["北方", "北部", "北边"]),
  ("dongfang", ["东方", "东部", "东边"]),
  ("xifang", ["西方", "西部", "西边"]),
  ("zhongxin", ["中心", "中央", "核心"]),
  ("zuoshang", ["左上", "左上方", "西北"]),
  ("youshang", ["右上", "右上方", "东北"]),
  ("zuoxia", ["左下", "左下方", "西南"]),
  ("youxia", ["右下", "右下方", "东南"]),
  ("shangmian", ["上面", "上边", "上方"]),
  ("xiamian", ["下面", "下边", "下方"]),
  ("zuobian", ["左边", "左侧", "左方"]),
  ("youbian", ["右边", "右侧", "右方"]),
  ("qianmian", ["前面", "前方", "前边"]),
  ("houmian", ["后面", "后方", "后边"]),
  ("linjin", ["临近", "靠近", "接近"]),
  ("yuandian", ["远点", "远处", "远方"]),
  ("fujin", ["附近", "周边", "周围"]),
  ("zhoubian", ["周边", "周围", "四周"]),
  ("neibu", ["内部", "内侧", "里面"]),
  ("waibu", ["外部", "外侧", "外面"]),
  ("zhongjian", ["中间", "中部", "中央"]),
  ("qidian", ["起点", "出发点", "开始点"]),
  ("zhongdian", ["终点", "目的地", "结束点"]),
  ("zhongzhuan", ["中转", "转乘", "换乘"]),
  ("jichang", ["机场", "航空港", "飞机场"]),
  ("chezhan", ["车站", "火车站", "客运站"]),
  ("ditiezhan", ["地铁站", "地下铁车站", "轨道交通站"]),
  ("gongjiao", ["公交", "公共汽车", "公交车"]),
  ("chuzuche", ["出租车", "的士", "计程车"]),
  ("danche", ["单车", "自行车", "脚踏车"]),
  ("qiche", ["汽车", "轿车", "机动车"]),
  ("huoche", ["火车", "列车", "铁路"]),
  ("ditie", ["地铁", "地下铁", "轨道交通"]),
  ("feiji", ["飞机", "航班", "航空器"]),
  ("chuanbo", ["船舶", "船只", "轮船"]),
  ("gonglu", ["公路", "道路", "马路"]),
  ("gaosu", ["高速", "高速公路", "快速路"]),
  ("qiaoliang", ["桥梁", "桥", "大桥"]),
  ("suidao", ["隧道", "通道", "地道"]),
  ("jiedao", ["街道", "大街", "马路"]),
  ("xiaqu", ["辖区", "区域", "地区"]),
  ("chengshi", ["城市", "都市", "市区"]),
  ("xiangcun", ["乡村", "农村", "乡下"]),
  ("shangdian", ["商店", "店铺", "商铺"]),
  ("chaoshi", ["超市", "卖场", "购物中心"]),
  ("shangcheng", ["商城", "商业城", "购物网站"]),
  ("shangjia", ["商家", "商户", "卖家"]),
  ("guke", ["顾客", "客户", "买家"]),
  ("xiaofei", ["消费", "花费", "支出"]),
  ("goumai", ["购买", "采购", "买入"]),
  ("dingdan", ["订单", "订购单", "购买单"]),
  ("zhifu", ["支付", "付款", "结账"]),
  ("jine", ["金额", "数目", "款项"]),
  ("zhangdan", ["账单", "清单", "明细"]),
  ("fapiao", ["发票", "票据", "收据"]),
  ("tuikuan", ["退款", "退货", "返还"]),
  ("peisong", ["配送", "送货", "快递"]),
  ("wuliu", ["物流", "货运", "运输"]),
  ("kuaidi", ["快递", "快件", "速递"]),
  ("baozhuang", ["包装", "打包", "封装"]),
  ("shouhou", ["售后", "售后服务", "客户服务"]),
  ("tousu", ["投诉", "举报", "申诉"]),
  ("weiquan", ["维权", "维护权益", "保护权利"]),
  ("pingjia", ["评价", "评分", "评级"]),
  ("haoping", ["好评", "赞扬", "称赞"]),
  ("chaping", ["差评", "批评", "负面评价"]),
  ("tuijian", ["推荐", "推介", "建议"]),
  ("remen", ["热门", "热销", "流行"]),
  ("xinpin", ["新品", "新产品", "新款"]),
  ("tejia", ["特价", "优惠价", "折扣价"]),
  ("manjian", ["满减", "满额减免", "促销"]),
  ("youhui", ["优惠", "折扣", "减价"]),
  ("lijian", ["立减", "立即减免", "当场优惠"]),
  ("fanli", ["返利", "回扣", "返现"]),
  ("jifen", ["积分", "点数", "奖励点"]),
  ("huiyuan", ["会员", "VIP", "贵宾"]),
  ("dengji", ["等级", "级别", "层次"]),
  ("quanxian", ["权限", "权力", "授权"]),
  ("tequan", ["特权", "特殊权利", "优待"]),
  ("fuli", ["福利", "好处", "利益"]),
  ("jiangli", ["奖励", "奖赏", "激励"]),
  ("chengfa", ["惩罚", "处罚", "惩戒"]),
  ("guize", ["规则", "规定", "制度"]),
  ("tiaokuan", ["条款", "条文", "条件"]),
  ("xieyi", ["协议", "协定", "合约"]),
  ("hetong", ["合同", "契约", "合约"]),
  ("qiandu", ["签署", "签字", "签约"]),
  ("xuzhi", ["须知", "注意事项", "提示"]),
  ("shuoming", ["说明", "说明书", "解释"]),
  ("zaixian", ["在线", "线上", "联网"]),
  ("lixian", ["离线", "线下", "脱机"]),
  ("shishou", ["实时", "即时", "同步"]),
  ("tongbu", ["同步", "一致", "协调"]),
  ("yibu", ["异步", "不同步", "非同步"]),
  ("jiami", ["加密", "保密", "密码保护"]),
  ("jiemi", ["解密", "破译", "解码"]),
  ("anquan", ["安全", "保安", "防护"]),
  ("fengxian", ["风险", "危险", "隐患"]),
  ("baohu", ["保护", "防护", "保卫"]),
  ("banben", ["版本", "版次", "发行版"]),
  ("shengji", ["升级", "提升", "改善"]),
  ("jiangji", ["降级", "降低", "下调"]),
  ("chushihua", ["初始化", "初始设置", "初始化配置"]),
  ("peizhi", ["配置", "设定", "参数"]),
  ("canshu", ["参数", "变量", "指标"]),
  ("mubiao", ["目标", "目的", "宗旨"]),
  ("renwu", ["任务", "工作", "事项"]),
  ("jihua", ["计划", "规划", "安排"]),
  ("richeng", ["日程", "行程", "时间表"]),
  ("riqi", ["日期", "日子", "日"]),
  ("shijianbiao", ["时间表", "时刻表", "日程表"]),
  ("daiban", ["代办", "代理", "委托"]),
  ("weituoren", ["委托人", "代理人", "受托人"]),
  ("shouquan", ["授权", "委托", "委任"]),
  ("zeren", ["责任", "职责", "义务"]),
  ("quanli", ["权利", "权益", "权力"]),
  ("yiwu", ["义务", "职责", "责任"]),
  ("gangwei", ["岗位", "职位", "职务"]),
  ("zhiwei", ["职位", "岗位", "职务"]),
  ("bumen", ["部门", "单位", "科室"]),
  ("gongsi", ["公司", "企业", "机构"]),
  ("danwei", ["单位", "机构", "组织"]),
  ("zuzhi", ["组织", "团体", "机构"]),
  ("tuandui", ["团队", "队伍", "小组"]),
  ("chengyuan", ["成员", "人员", "队员"]),
  ("lingdao", ["领导", "上司", "主管"]),
  ("xiashu", ["下属", "部下", "手下"]),
  ("tongshi", ["同事", "同仁", "伙伴"]),
  ("huoban", ["伙伴", "搭档", "同伴"]),
  ("pengyou", ["朋友", "好友", "友人"]),
  ("tongxue", ["同学", "校友", "同窗"]),
  ("laoshi", ["老师", "教师", "导师"]),
  ("xuesheng", ["学生", "学员", "学子"]),
  ("jiazhang", ["家长", "父母", "监护人"]),
  ("haizi", ["孩子", "小孩", "儿童"]),
  ("ertong", ["儿童", "孩童", "小朋友"]),
  ("qingnian", ["青年", "年轻人", "小伙子"]),
  ("zhongnian", ["中年", "中年人", "壮年"]),
  ("laonian", ["老年", "老年人", "长者"]),
  ("nanren", ["男人", "男性", "男士"]),
  ("nvren", ["女人", "女性", "女士"]),
  ("qingkuang", ["情况", "状况", "情形"]),
  ("went", ["问题", "疑问", "难题"]),
  ("kunnan", ["困难", "难题", "障碍"]),
  ("jielun", ["结论", "结果", "成果"]),
  ("guocheng", ["过程", "流程", "步骤"]),
  ("fangfa", ["方法", "方式", "办法"]),
  ("jishu", ["技术", "技能", "技艺"]),
  ("jingyan", ["经验", "体会", "心得"]),
  ("jiaoxun", ["教训", "经验", "启示"]),
  ("zhishi", ["知识", "学问", "学识"]),
  ("xuexi", ["学习", "研习", "进修"]),
  ("jiaoyu", ["教育", "教导", "培育"]),
  ("peixun", ["培训", "训练", "培养"]),
  ("kaoshi", ["考试", "测验", "考核"]),
  ("chengji", ["成绩", "分数", "成果"]),
  ("pingfen", ["评分", "打分", "评价"]),
  ("jidian", ["绩点", "平均分", "学分绩点"]),
  ("xuefen", ["学分", "学时", "课程单位"]),
  ("kecheng", ["课程", "科目", "学科"]),
  ("xueke", ["学科", "科目", "专业"]),
  ("zhuanye", ["专业", "专门", "专长"]),
  ("xueyuan", ["学院", "学校", "院校"]),
  ("xuexiao", ["学校", "学堂", "院校"]),
  ("banji", ["班级", "班", "班级单位"]),
  ("jiaoshi", ["教室", "课堂", "教学场所"]),
  ("shiyanshi", ["实验室", "实验场所", "研究室"]),
  ("tushuguan", ["图书馆", "图书室", "阅览室"]),
  ("cangku", ["仓库", "库房", "储存室"]),
  ("bangongshi", ["办公室", "办公场所", "写字楼"]),
  ("huiyishi", ["会议室", "会议场所", "会场"]),
  ("chaozhishi", ["值班室", "值班处", "值守点"])
]

def common_mappings : List (String × List String) := [
  ("ni", ["你", "尼", "泥"]),
  ("hao", ["好", "号", "毫"]),
  ("nihao", ["你好"]),
  ("wo", ["我", "窝"]),
  ("ta", ["他", "她", "它"]),
  ("de", ["的", "得", "地"]),
  ("shi", ["是", "时", "十"]),
  ("zai", ["在", "再"]),
  ("you", ["有", "又", "右"]),
  ("le", ["了", "乐"]),
  ("yi", ["一", "已", "以"]),
  ("ge", ["个", "格"]),
  ("ren", ["人", "任"]),
  ("shang", ["上", "商"]),
  ("xia", ["下", "夏"]),
  ("zhong", ["中", "重"]),
  ("guo", ["国", "过"]),
  ("da", ["大", "达"]),
  ("xiao", ["小", "笑"]),
  ("shui", ["水", "谁"])
]

/-- The engine couples the dictionary state with the external `pypinyin`
library, modelled as an opaque-to-the-claims but fixed deterministic
function returning, per input, the groups of heteronym readings
(`pinyin(s, style=Style.NORMAL, heteronym=True)`). -/
structure PinyinEngine : Type where
  dict_manager : DictionaryManager
  pypinyinF : String → List (List String)

/-- `PinyinEngine._get_word_score` (lines 412–431): dictionary frequency
plus, for curated phrases, `10000 - position * 1000`. -/
def PinyinEngine.get_word_score (dm : DictionaryManager)
    (word pinyin : String) : Int :=
  let base := dm.get_word_frequency word pinyin
  match dictFind? common_phrases pinyin with
  | some l =>
    if word ∈ l then base + (10000 - (l.indexOf word : Int) * 1000) else base
  | none => base

/-- `pinyin_str[j:i]` on the character list of the input. -/
def subStr (cs : List Char) (j i : Nat) : String :=
  String.mk ((cs.drop j).take (i - j))

/-- The sequence of candidates generated for lattice cell `i` of
`PinyinEngine.segment` (lines 377–394), in exactly the order the source's
nested loops produce them: split points `j < i` ascending, then the words
of `lookup(pinyin_str[j:i])` in dictionary order, then the entries of
`dp[j]` in cell order. -/
def cellCands (dm : DictionaryManager) (cs : List Char)
    (dp : List (List (String × Int))) (i : Nat) : List (String × Int) :=
  (List.range i).flatMap (fun j =>
    let dpj := dp.getD j []
    if dpj = [] then []
    else
      match dm.lookup (subStr cs j i) with
      | some words =>
        if words = [] then []
        else
          words.flatMap (fun word =>
            dpj.map (fun pr =>
              (pr.1 ++ word,
               pr.2 + PinyinEngine.get_word_score dm word (subStr cs j i))))
      | none => [])

/-- Lines 396–402: append one candidate to a cell; when the cell already
holds 30 entries, re-sort descending by score (stable) and keep the top
30. -/
def capInsert (cell : List (String × Int)) (c : String × Int) :
    List (String × Int) :=
  if cell.length < 30 then cell ++ [c]
  else (pySortDesc (fun x => x.2) (cell ++ [c])).take 30

def buildCell (dm : DictionaryManager) (cs : List Char)
    (dp : List (List (String × Int))) (i : Nat) : List (String × Int) :=
  (cellCands dm cs dp i).foldl capInsert []

/-- The dynamic-programming table of `PinyinEngine.segment`: cell 0 is
`[("", 0)]` and cell `i` (for `1 ≤ i ≤ n`) collects the capped candidate
list built from the earlier cells. -/
def segmentDP (dm : DictionaryManager) (cs : List Char) :
    List (List (String × Int)) :=
  (List.range cs.length).foldl
    (fun dp k => dp ++ [buildCell dm cs dp (k + 1)]) [[("", 0)]]

/-- `PinyinEngine.segment` (lines 359–410). -/
def PinyinEngine.segment (e : PinyinEngine) (pinyin_str : String) :
    List String :=
  if pinyin_str = "" then []
  else
    let cs := pinyin_str.data
    let dp := segmentDP e.dict_manager cs
    let last := dp.getD cs.length []
    if last = [] then []
    else (pySortDesc (fun x => x.2) last).map (fun x => x.1)

/-- The append-if-unseen step used by steps 4 and 5 of
`PinyinEngine.get_candidates` (`if hanzi not in candidates:
candidates.append(hanzi)`). -/
def appendIfNew (cands : List String) (hanzi : String) : List String :=
  if hanzi ∈ cands then cands else cands ++ [hanzi]

/-- Step 4 of `PinyinEngine.get_candidates` (lines 466–482): for every
heteronym reading of every character group returned by `pypinyin`, append
the dictionary hits that are not yet in the candidate list. -/
def step4Fold (dm' : DictionaryManager) (groups : List (List String))
    (cands : List String) : List String :=
  groups.foldl
    (fun cands grp =>
      grp.foldl
        (fun cands char_pinyin =>
          match dm'.lookup char_pinyin with
          | some hanzi_list =>
            if hanzi_list = [] then cands
            else hanzi_list.foldl appendIfNew cands
          | none => cands) cands) cands

/-- Step 5 of `PinyinEngine.get_candidates` (lines 484–511): append the
hard-coded common mappings not yet present. -/
def step5Fold (pinyin_str : String) (cands : List String) : List String :=
  match dictFind? common_mappings pinyin_str with
  | some ws => ws.foldl appendIfNew cands
  | none => cands

/-- `PinyinEngine.get_candidates` (lines 433–521), with the dictionary
mutation performed by step 3 (`DictionaryManager.get_candidates`) made
explicit in the returned engine; the final `dedupFirst` keeps the first
occurrence of each surface string. -/
def PinyinEngine.get_candidates (e : PinyinEngine) (pinyin_str : String) :
    List String × PinyinEngine :=
  if pinyin_str = "" then ([], e)
  else
    let step1 := (dictFind? common_phrases pinyin_str).getD []
    let seg := e.segment pinyin_str
    let step3 := e.dict_manager.get_candidates pinyin_str (-1)
    (dedupFirst (step5Fold pinyin_str
        (step4Fold step3.2 (e.pypinyinF pinyin_str)
          (step1 ++ seg ++ step3.1))),
      { e with dict_manager := step3.2 })

/-! ### InputManager session state (input_manager.py)

The session fields of `InputManager.__init__` that the candidate-selection
and pagination operations read or write.  GUI calls
(`candidate_window.update_candidates` / `hide`) are modelled by the
`window_visible` flag; sending keystrokes / clipboard text to the active
application is modelled by the `Option String` of committed text that
`select_candidate` returns. -/

structure InputManager : Type where
  pinyin_buffer : String
  candidates : List String
  full_candidates : List String
  current_page : Nat
  page_size : Nat
  is_active : Bool
  ai_completions : List String
  is_ai_mode : Bool
  last_input_text : String
  last_input_pinyin : String
  window_visible : Bool

/-- `InputManager.show_current_page_candidates` (lines 422–449): slice the
full candidate list for the current page; an empty slice on a positive page
falls back one page and retries. -/
def InputManager.show_current_page_candidates (st : InputManager) :
    InputManager :=
  if st.full_candidates = [] then
    { st with candidates := [], window_visible := false }
  else
    let start_index := st.current_page * st.page_size
    let end_index :=
      min (start_index + st.page_size) st.full_candidates.length
    let cs := (st.full_candidates.drop start_index).take
      (end_index - start_index)
    let st1 := { st with candidates := cs }
    if cs ≠ [] then { st1 with window_visible := true }
    else if h : st1.current_page > 0 then
      InputManager.show_current_page_candidates
        { st1 with current_page := st1.current_page - 1 }
    else { st1 with window_visible := false }
termination_by st.current_page
decreasing_by
  simp only [InputManager.current_page] at h ⊢
  omega

/-- `InputManager.next_page` (lines 139–150).  `max_page` is computed with
Python integer arithmetic (it is `-1` for an empty candidate list, so the
comparison is over `Int`). -/
def InputManager.next_page (st : InputManager) : InputManager × Bool :=
  let max_page : Int :=
    ((st.full_candidates.length : Int) + (st.page_size : Int) - 1) /
      (st.page_size : Int) - 1
  if (st.current_page : Int) < max_page then
    (InputManager.show_current_page_candidates
      { st with current_page := st.current_page + 1 }, true)
  else (st, false)

/-- `InputManager.previous_page` (lines 152–162). -/
def InputManager.previous_page (st : InputManager) : InputManager × Bool :=
  if st.current_page > 0 then
    (InputManager.show_current_page_candidates
      { st with current_page := st.current_page - 1 }, true)
  else (st, false)

/-- `InputManager.reset_state` (lines 608–618): `last_input_text` and
`last_input_pinyin` are deliberately kept. -/
def InputManager.reset_state (st : InputManager) : InputManager :=
  { st with
    pinyin_buffer := "", candidates := [], full_candidates := [],
    current_page := 0, is_active := false, is_ai_mode := false,
    ai_completions := [], window_visible := false }

/-- `InputManager.exit_ai_mode` (lines 600–606). -/
def InputManager.exit_ai_mode (st : InputManager) : InputManager :=
  InputManager.show_current_page_candidates
    { st with is_ai_mode := false, ai_completions := [] }

/-- `InputManager.select_candidate` (lines 451–495).  Python's chained
`0 <= index < len(...)` guard; an index outside the guard falls through the
`if` with no `else`, so nothing at all happens.  In the in-range composing
branch the source indexes `self.full_candidates[absolute_index]` directly
(modelled with a default, which the reachable states never use). -/
def InputManager.select_candidate (st : InputManager) (index : Int) :
    InputManager × Option String :=
  if st.is_ai_mode then
    if 0 ≤ index ∧ index < (st.ai_completions.length : Int) then
      let selected := st.ai_completions.getD index.toNat ""
      let st1 := { st with
        last_input_text := selected, last_input_pinyin := "" }
      (st1.exit_ai_mode, some selected)
    else (st, none)
  else
    if 0 ≤ index ∧ index < (st.candidates.length : Int) then
      let absolute_index := st.current_page * st.page_size + index.toNat
      let selected := st.full_candidates.getD absolute_index ""
      let st1 := { st with
        last_input_text := selected,
        last_input_pinyin := st.pinyin_buffer }
      (st1.reset_state, some selected)
    else (st, none)

/-! ### AI completion parsing (ai_engine.py)

`ast.literal_eval` is Python-stdlib, external to the repository; it is
modelled as a parameter `lev : LiteralEval`, where `lev.eval? s = none`
models an exception, `some (.list items)` a successfully evaluated list and
`some .other` any non-list literal. -/

inductive PyLit : Type where
  | list (items : List String) : PyLit
  | other : PyLit

structure LiteralEval : Type where
  eval? : String → Option PyLit

/-- The first match of the regex `\[(.*?)\]` with `re.DOTALL`: the text
between the first `[` and the next `]` after it, re-wrapped in brackets
(lines 84–87). -/
def bracketSpan (content : String) : Option String :=
  match content.data.dropWhile (fun c => c ≠ '[') with
  | [] => none
  | _ :: rest =>
    let inner := rest.takeWhile (fun c => c ≠ ']')
    if rest.length = inner.length then none
    else some (String.mk ('[' :: (inner ++ [']'])))

/-- All matches of `re.findall(r'["\']([^"\']*)["\'])`: scan left to right;
at an opening quote (either kind) capture the maximal quote-free run, which
must be closed by a quote of either kind; continue after the closing quote.
An unclosed opening quote at the end of the input yields no further match.
The accumulator holds the reversed captured run while inside a match. -/
def findQuotedAux : List Char → Option (List Char) → List String
  | [], _ => []
  | c :: rest, none =>
    if c = '"' ∨ c = '\'' then findQuotedAux rest (some [])
    else findQuotedAux rest none
  | c :: rest, some run =>
    if c = '"' ∨ c = '\'' then
      String.mk run.reverse :: findQuotedAux rest none
    else findQuotedAux rest (some (c :: run))

def findQuoted (cs : List Char) : List String :=
  findQuotedAux cs none

/-- Strategy 1 (lines 74–80): `ast.literal_eval` on the whole content. -/
def strat1 (lev : LiteralEval) (content : String) : Option (List String) :=
  match lev.eval? content with
  | some (PyLit.list items) => some items
  | _ => none

/-- Strategy 2 (lines 82–92): `ast.literal_eval` on the first bracketed
span. -/
def strat2 (lev : LiteralEval) (content : String) : Option (List String) :=
  match bracketSpan content with
  | some list_content =>
    match lev.eval? list_content with
    | some (PyLit.list items) => some items
    | _ => none
  | none => none

/-- Strategy 3 (lines 94–105): split on newlines, strip
`' \n\r\t"\''`, keep lines that are non-empty, do not start with `[` and
do not end with `]`; succeed on the first three if any remain. -/
def strat3 (content : String) : Option (List String) :=
  let lines := ((pySplit content '\n').filter
    (fun line => pyStrip line ≠ "")).map
      (pyStripChars [' ', '\n', '\r', '\t', '"', '\''])
  let filtered := lines.filter
    (fun line => line ≠ "" ∧ ¬ pyStartsWith line "[" ∧
      ¬ pyEndsWith line "]")
  if filtered ≠ [] then some (filtered.take 3) else none

/-- Strategy 4 (lines 107–117): quoted substrings with non-blank content;
succeed on the first three if any. -/
def strat4 (content : String) : Option (List String) :=
  let quoted_items := findQuoted content.data
  if quoted_items ≠ [] then
    let non_empty := quoted_items.filter (fun it => pyStrip it ≠ "")
    if non_empty ≠ [] then some (non_empty.take 3) else none
  else none

/-- `AICompletionWorker._parse_completions` (lines 65–119): the four
strategies in order, total failure yielding the empty list. -/
def parse_completions (lev : LiteralEval) (content : String) :
    List String :=
  match strat1 lev content with
  | some items => items
  | none =>
    match strat2 lev content with
    | some items => items
    | none =>
      match strat3 content with
      | some items => items
      | none =>
        match strat4 content with
        | some items => items
        | none => []

/-- The result-emission logic of `AICompletionWorker.run` (lines 49–60):
a non-empty parse emits its first three entries on the `finished` signal,
anything else emits an error. -/
def run_result (lev : LiteralEval) (content : String) :
    Except String (List String) :=
  let completions := parse_completions lev content
  if completions ≠ [] then Except.ok (completions.take 3)
  else Except.error "AI returned an unusable or empty format"

/-! ### Properties of the stable sort -/

/-- Sorted descending by the key `σ`. -/
def SortedDesc {α : Type} (σ : α → Int) (l : List α) : Prop :=
  l.Pairwise (fun a b => σ b ≤ σ a)

theorem pyIns_perm {α : Type} (σ : α → Int) (x : α) (l : List α) :
    (pyIns σ x l).Perm (x :: l) := by
  induction l with
  | nil => simp [pyIns]
  | cons z m ih =>
    simp only [pyIns]
    split
    · exact (ih.cons z).trans (List.Perm.swap x z m)
    · exact List.Perm.refl _

theorem foldl_pyIns_perm {α : Type} (σ : α → Int) :
    ∀ (l acc : List α),
      (l.foldl (fun a x => pyIns σ x a) acc).Perm (acc ++ l)
  | [], acc => by simp
  | x :: l', acc => by
    have h1 := foldl_pyIns_perm σ l' (pyIns σ x acc)
    have h2 : (pyIns σ x acc ++ l').Perm ((x :: acc) ++ l') :=
      (pyIns_perm σ x acc).append_right l'
    have h3 : ((x :: acc) ++ l').Perm (acc ++ x :: l') := by
      simpa using List.perm_middle.symm
    exact (h1.trans h2).trans h3

theorem pySortDesc_perm {α : Type} (σ : α → Int) (l : List α) :
    (pySortDesc σ l).Perm l := by
  simpa [pySortDesc] using foldl_pyIns_perm σ l []

theorem mem_pySortDesc {α : Type} (σ : α → Int) (l : List α) (x : α) :
    x ∈ pySortDesc σ l ↔ x ∈ l :=
  (pySortDesc_perm σ l).mem_iff

theorem length_pySortDesc {α : Type} (σ : α → Int) (l : List α) :
    (pySortDesc σ l).length = l.length :=
  (pySortDesc_perm σ l).length_eq

theorem pyIns_sorted {α : Type} {σ : α → Int} {l : List α} (x : α)
    (h : SortedDesc σ l) : SortedDesc σ (pyIns σ x l) := by
  induction l with
  | nil => simp [pyIns, SortedDesc]
  | cons z m ih =>
    rcases List.pairwise_cons.mp h with ⟨hz, hm⟩
    simp only [pyIns]
    split
    · rename_i hle
      refine List.pairwise_cons.mpr ⟨?_, ih hm⟩
      intro b hb
      rcases List.mem_cons.mp ((pyIns_perm σ x m).mem_iff.mp hb) with hbx | hbm
      · simpa [hbx] using hle
      · exact hz b hbm
    · rename_i hgt
      push_neg at hgt
      refine List.pairwise_cons.mpr ⟨?_, h⟩
      intro b hb
      rcases List.mem_cons.mp hb with hbz | hbm
      · exact le_of_lt (hbz ▸ hgt)
      · exact le_trans (hz b hbm) (le_of_lt hgt)

theorem foldl_pyIns_sorted {α : Type} {σ : α → Int} :
    ∀ (l acc : List α), SortedDesc σ acc →
      SortedDesc σ (l.foldl (fun a x => pyIns σ x a) acc)
  | [], _, h => h
  | x :: l', acc, h =>
    foldl_pyIns_sorted l' (pyIns σ x acc) (pyIns_sorted x h)

theorem pySortDesc_sorted {α : Type} (σ : α → Int) (l : List α) :
    SortedDesc σ (pySortDesc σ l) :=
  foldl_pyIns_sorted l [] (List.Pairwise.nil)

theorem pyIns_of_all_le {α : Type} {σ : α → Int} {l : List α} {x : α}
    (h : ∀ z ∈ l, σ x ≤ σ z) : pyIns σ x l = l ++ [x] := by
  induction l with
  | nil => simp [pyIns]
  | cons z m ih =>
    simp only [pyIns, h z (List.mem_cons_self z m), if_pos]
    rw [ih (fun z hz => h z (List.mem_cons_of_mem _ hz))]
    simp

theorem foldl_pyIns_of_sorted {α : Type} {σ : α → Int} :
    ∀ (l acc : List α), SortedDesc σ (acc ++ l) →
      l.foldl (fun a x => pyIns σ x a) acc = acc ++ l
  | [], acc, _ => by simp
  | x :: l', acc, h => by
    have hx : ∀ z ∈ acc, σ x ≤ σ z := by
      rcases List.pairwise_append.mp h with ⟨_, _, hcross⟩
      exact fun z hz => hcross z hz x (List.mem_cons_self x l')
    have hins : pyIns σ x acc = acc ++ [x] := pyIns_of_all_le hx
    have hsorted : SortedDesc σ ((acc ++ [x]) ++ l') := by
      simpa [List.append_assoc] using h
    calc ((x :: l').foldl (fun a x => pyIns σ x a) acc)
        = l'.foldl (fun a x => pyIns σ x a) (acc ++ [x]) := by
          simp [List.foldl_cons, hins]
      _ = (acc ++ [x]) ++ l' := foldl_pyIns_of_sorted l' (acc ++ [x]) hsorted
      _ = acc ++ x :: l' := by simp

theorem pySortDesc_of_sorted {α : Type} {σ : α → Int} {l : List α}
    (h : SortedDesc σ l) : pySortDesc σ l = l := by
  simpa [pySortDesc] using foldl_pyIns_of_sorted l [] (by simpa using h)

theorem pySortDesc_idem {α : Type} (σ : α → Int) (l : List α) :
    pySortDesc σ (pySortDesc σ l) = pySortDesc σ l :=
  pySortDesc_of_sorted (pySortDesc_sorted σ l)

theorem SortedDesc.take {α : Type} {σ : α → Int} {l : List α}
    (h : SortedDesc σ l) (n : Nat) : SortedDesc σ (l.take n) :=
  List.Pairwise.sublist (List.take_sublist n l) h

theorem take_cons_take {α : Type} (z : α) (s : List α) (m : Nat) :
    (z :: s.take m).take m = (z :: s).take m := by
  cases m with
  | zero => simp
  | succ k =>
    simp only [List.take_succ_cons, List.take_take]
    congr 1
    congr 1
    omega

theorem take_pyIns_take {α : Type} (σ : α → Int) (x : α) :
    ∀ (s : List α) (n : Nat),
      (pyIns σ x (s.take n)).take n = (pyIns σ x s).take n
  | [], _ => by simp
  | _ :: _, 0 => by simp
  | z :: s', n + 1 => by
    simp only [List.take_succ_cons, pyIns]
    split
    · simp only [List.take_succ_cons]
      rw [take_pyIns_take σ x s' n]
    · simp only [List.take_succ_cons]
      rw [take_cons_take]

/-! ### Properties of first-occurrence deduplication -/

theorem dedupFold_decomp :
    ∀ (l acc : List String),
      ∃ t, l.foldl (fun acc c => if c ∈ acc then acc else acc ++ [c]) acc
          = acc ++ t ∧
        t.Sublist l ∧ (∀ x ∈ t, x ∉ acc) ∧ t.Nodup
  | [], acc => ⟨[], by simp⟩
  | c :: l', acc => by
    by_cases hc : c ∈ acc
    · obtain ⟨t, ht, hsub, hfresh, hnd⟩ := dedupFold_decomp l' acc
      exact ⟨t, by simpa [hc] using ht, hsub.trans (List.sublist_cons_self c l'),
        hfresh, hnd⟩
    · obtain ⟨t, ht, hsub, hfresh, hnd⟩ := dedupFold_decomp l' (acc ++ [c])
      refine ⟨c :: t, ?_, List.Sublist.cons₂ c hsub, ?_, ?_⟩
      · simp only [List.foldl_cons, if_neg hc]
        rw [ht]
        simp
      · intro x hx
        rcases List.mem_cons.mp hx with hxc | hxt
        · exact hxc ▸ hc
        · have := hfresh x hxt
          simp only [List.mem_append, List.mem_singleton] at this
          exact fun h => this (Or.inl h)
      · refine List.nodup_cons.mpr ⟨?_, hnd⟩
        intro hct
        exact hfresh c hct (by simp)

theorem dedupFirst_decomp (l : List String) :
    (dedupFirst l).Sublist l ∧ (dedupFirst l).Nodup := by
  obtain ⟨t, ht, hsub, _, hnd⟩ := dedupFold_decomp l []
  simp only [dedupFirst, ht, List.nil_append]
  exact ⟨hsub, hnd⟩

theorem dedupFirst_nodup (l : List String) : (dedupFirst l).Nodup :=
  (dedupFirst_decomp l).2

theorem dedupFirst_sublist (l : List String) : (dedupFirst l).Sublist l :=
  (dedupFirst_decomp l).1

theorem dedupFold_mem :
    ∀ (l acc : List String) (x : String),
      x ∈ l.foldl (fun acc c => if c ∈ acc then acc else acc ++ [c]) acc ↔
        x ∈ acc ∨ x ∈ l
  | [], acc, x => by simp
  | c :: l', acc, x => by
    by_cases hc : c ∈ acc
    · simp only [List.foldl_cons, if_pos hc, dedupFold_mem l' acc x,
        List.mem_cons]
      constructor
      · rintro (h | h)
        · exact Or.inl h
        · exact Or.inr (Or.inr h)
      · rintro (h | h | h)
        · exact Or.inl h
        · exact Or.inl (h ▸ hc)
        · exact Or.inr h
    · simp only [List.foldl_cons, if_neg hc, dedupFold_mem l' (acc ++ [c]) x,
        List.mem_append, List.mem_singleton, List.mem_cons]
      tauto

theorem mem_dedupFirst (l : List String) (x : String) :
    x ∈ dedupFirst l ↔ x ∈ l := by
  simpa [dedupFirst] using dedupFold_mem l [] x

theorem dedupFirst_append (a b : List String) :
    ∃ t, dedupFirst (a ++ b) = dedupFirst a ++ t ∧ ∀ x ∈ t, x ∉ a := by
  obtain ⟨t, ht, _, hfresh, _⟩ := dedupFold_decomp b (dedupFirst a)
  refine ⟨t, ?_, fun x hx hxa => hfresh x hx ((mem_dedupFirst a x).mpr hxa)⟩
  simp only [dedupFirst, List.foldl_append]
  exact ht

/-! ### The capped cell insertion is exactly "stable sort, keep top 30" -/

theorem pySortDesc_append_single {α : Type} (σ : α → Int) (l : List α)
    (x : α) : pySortDesc σ (l ++ [x]) = pyIns σ x (pySortDesc σ l) := by
  simp [pySortDesc, List.foldl_append]

theorem foldl_capInsert_eq (gen : List (String × Int)) :
    gen.foldl capInsert [] =
      if gen.length ≤ 30 then gen
      else (pySortDesc (fun x => x.2) gen).take 30 := by
  induction gen using List.reverseRecOn with
  | nil => simp
  | append_singleton g x ih =>
    have hstep : (g ++ [x]).foldl capInsert [] =
        capInsert (g.foldl capInsert []) x := by
      simp [List.foldl_append]
    rw [hstep, ih]
    by_cases h30 : g.length ≤ 30
    · rw [if_pos h30]
      by_cases h29 : g.length < 30
      · rw [capInsert, if_pos h29, if_pos (by simp; omega)]
      · have hlen : g.length = 30 := by omega
        rw [capInsert, if_neg (by omega), if_neg (by simp; omega)]
    · rw [if_neg h30]
      have hlen : ((pySortDesc (fun x => x.2) g).take 30).length = 30 := by
        rw [List.length_take, length_pySortDesc]
        omega
      rw [capInsert, if_neg (by omega), if_neg (by simp; omega)]
      rw [pySortDesc_append_single, pySortDesc_append_single]
      rw [pySortDesc_of_sorted ((pySortDesc_sorted _ g).take 30)]
      exact take_pyIns_take _ x (pySortDesc _ g) 30

theorem foldl_capInsert_length_le (gen : List (String × Int)) :
    (gen.foldl capInsert []).length ≤ 30 := by
  rw [foldl_capInsert_eq]
  split
  · rename_i h
    exact h
  · rw [List.length_take, length_pySortDesc]
    omega

theorem mem_foldl_capInsert {x : String × Int} {gen : List (String × Int)}
    (hx : x ∈ gen.foldl capInsert []) : x ∈ gen := by
  rw [foldl_capInsert_eq] at hx
  split at hx
  · exact hx
  · exact (mem_pySortDesc _ gen x).mp (List.mem_of_mem_take hx)

/-! ### Python dict lemmas -/

theorem find?_map_update {κ ν : Type} [BEq κ] [LawfulBEq κ]
    (l : List (κ × ν)) (k : κ) (v : ν) :
    ((l.map (fun kv => if kv.1 == k then (k, v) else kv)).find?
        (fun kv => kv.1 == k)) =
      if l.any (fun kv => kv.1 == k) then some (k, v) else none := by
  induction l with
  | nil => simp
  | cons kv l' ih =>
    by_cases hk : (kv.1 == k) = true
    · simp [List.find?, hk]
    · simp only [Bool.not_eq_true] at hk
      simp only [List.map_cons, hk, List.find?, if_false, Bool.false_eq_true,
        cond_false, List.any_cons, Bool.false_or]
      exact ih

theorem dictFind?_dictSet_self {κ ν : Type} [BEq κ] [LawfulBEq κ]
    (l : List (κ × ν)) (k : κ) (v : ν) :
    dictFind? (dictSet l k v) k = some v := by
  unfold dictSet dictFind?
  by_cases hany : l.any (fun kv => kv.1 == k)
  · rw [if_pos hany, find?_map_update, if_pos hany]
    rfl
  · rw [if_neg hany, List.find?_append]
    have hnone : l.find? (fun kv => kv.1 == k) = none := by
      rw [List.find?_eq_none]
      intro kv hmem hkv
      exact hany (List.any_eq_true.mpr ⟨kv, hmem, hkv⟩)
    simp [hnone, List.find?]

theorem find?_map_update_ne {κ ν : Type} [BEq κ] [LawfulBEq κ]
    (l : List (κ × ν)) (k k' : κ) (v : ν) (h : k' ≠ k) :
    ((l.map (fun kv => if kv.1 == k then (k, v) else kv)).find?
        (fun kv => kv.1 == k')) = l.find? (fun kv => kv.1 == k') := by
  induction l with
  | nil => simp
  | cons kv l' ih =>
    by_cases hkk : kv.1 == k
    · have hk1 : kv.1 = k := eq_of_beq hkk
      have hne : ¬ (k == k') = true := by
        simp only [beq_iff_eq]
        exact fun hc => h hc.symm
      have hne' : ¬ (kv.1 == k') = true := by
        simp only [beq_iff_eq, hk1]
        exact fun hc => h hc.symm
      simp only [List.map_cons, if_pos hkk, List.find?, hne, hne', cond_false]
      exact ih
    · simp only [List.map_cons, if_neg hkk, List.find?]
      by_cases hk' : (kv.1 == k') = true
      · simp [hk']
      · simp only [hk', cond_false]
        exact ih

theorem dictFind?_dictSet_ne {κ ν : Type} [BEq κ] [LawfulBEq κ]
    (l : List (κ × ν)) (k k' : κ) (v : ν) (h : k' ≠ k) :
    dictFind? (dictSet l k v) k' = dictFind? l k' := by
  unfold dictSet dictFind?
  by_cases hany : l.any (fun kv => kv.1 == k)
  · rw [if_pos hany, find?_map_update_ne l k k' v h]
  · rw [if_neg hany, List.find?_append]
    have hne : (k == k') = false := by
      rw [beq_eq_false_iff_ne]
      exact fun hc => h hc.symm
    have hsingle : ([(k, v)].find? (fun kv => kv.1 == k')) = none := by
      simp [List.find?, hne]
    rw [hsingle]
    simp

/-! ### Claim theorems -/

/-- C2: for every dictionary state and input string, the candidate list
returned by `PinyinEngine.get_candidates` contains no duplicate surface
strings; the final first-occurrence loop keeps exactly the first occurrence
of each string (the deduplicated list is an order-preserving sub-sequence of
the merged priority list containing every string of it exactly once). -/
theorem get_candidates_nodup (e : PinyinEngine) (s : String) :
    ((e.get_candidates s).1).Nodup ∧
    (∀ l : List String, (dedupFirst l).Sublist l ∧ (dedupFirst l).Nodup ∧
      ∀ x, x ∈ dedupFirst l ↔ x ∈ l) := by
  constructor
  · unfold PinyinEngine.get_candidates
    split
    · simp
    · exact dedupFirst_nodup _
  · intro l
    exact ⟨dedupFirst_sublist l, dedupFirst_nodup l, mem_dedupFirst l⟩

/-- C7: selecting an index outside the bounds of the visible candidate page
(composing mode) or outside the suggestion list (AI mode) changes nothing:
the session state is returned untouched and no text is committed. -/
theorem select_candidate_out_of_range_noop (st : InputManager) (index : Int)
    (hai : st.is_ai_mode = true →
      ¬ (0 ≤ index ∧ index < (st.ai_completions.length : Int)))
    (hcomp : st.is_ai_mode = false →
      ¬ (0 ≤ index ∧ index < (st.candidates.length : Int))) :
    st.select_candidate index = (st, none) := by
  unfold InputManager.select_candidate
  cases hmode : st.is_ai_mode with
  | true => simp [hai hmode]
  | false => simp [hcomp hmode]

/-- Witness for C7: a concrete composing-mode session with a two-entry
visible page and `index = 5`, and a concrete AI-mode session with three
suggestions and `index = -1`; both selections are no-ops. -/
theorem select_candidate_out_of_range_noop_witness :
    (InputManager.select_candidate
        { pinyin_buffer := "ni", candidates := ["你", "尼"],
          full_candidates := ["你", "尼"], current_page := 0, page_size := 5,
          is_active := true, ai_completions := [], is_ai_mode := false,
          last_input_text := "", last_input_pinyin := "",
          window_visible := true } 5 =
      ({ pinyin_buffer := "ni", candidates := ["你", "尼"],
          full_candidates := ["你", "尼"], current_page := 0, page_size := 5,
          is_active := true, ai_completions := [], is_ai_mode := false,
          last_input_text := "", last_input_pinyin := "",
          window_visible := true }, none)) ∧
    (InputManager.select_candidate
        { pinyin_buffer := "", candidates := [],
          full_candidates := [], current_page := 0, page_size := 5,
          is_active := false, ai_completions := ["甲", "乙", "丙"],
          is_ai_mode := true, last_input_text := "", last_input_pinyin := "",
          window_visible := true } (-1) =
      ({ pinyin_buffer := "", candidates := [],
          full_candidates := [], current_page := 0, page_size := 5,
          is_active := false, ai_completions := ["甲", "乙", "丙"],
          is_ai_mode := true, last_input_text := "", last_input_pinyin := "",
          window_visible := true }, none)) :=
  ⟨select_candidate_out_of_range_noop _ 5
      (fun h => by simp at h) (fun _ => by decide),
    select_candidate_out_of_range_noop _ (-1)
      (fun _ => by decide) (fun h => by simp at h)⟩

/-- C9: suggestion-response parsing tries the four recovery strategies in
their fixed order, returning the first one that yields a list; when all
four fail the parse is the empty list (and, the embedding being total, no
exception escapes); and an emitted suggestion list never exceeds three
entries. -/
theorem parse_completions_strategies (lev : LiteralEval) (content : String) :
    (parse_completions lev content =
      ((strat1 lev content).orElse (fun _ =>
        (strat2 lev content).orElse (fun _ =>
          (strat3 content).orElse (fun _ => strat4 content)))).getD []) ∧
    (strat1 lev content = none → strat2 lev content = none →
      strat3 content = none → strat4 content = none →
      parse_completions lev content = []) ∧
    (∀ res, run_result lev content = Except.ok res → res.length ≤ 3) := by
  refine ⟨?_, ?_, ?_⟩
  · unfold parse_completions
    cases h1 : strat1 lev content with
    | some items => simp [Option.orElse, h1]
    | none =>
      cases h2 : strat2 lev content with
      | some items => simp [Option.orElse, h2]
      | none =>
        cases h3 : strat3 content with
        | some items => simp [Option.orElse, h3]
        | none =>
          cases h4 : strat4 content with
          | some items => simp [Option.orElse, h4]
          | none => simp [Option.orElse, h4]
  · intro h1 h2 h3 h4
    unfold parse_completions
    rw [h1, h2, h3, h4]
  · intro res hres
    simp only [run_result] at hres
    split at hres
    · injection hres with h
      subst h
      exact List.length_take_le 3 _
    · cases hres

/-- Witness for C9: with an evaluator that always raises, the content `"["`
defeats all four strategies and parses to the empty list, while the content
`"'aa' 'bb' 'cc' 'dd'"` yields an emitted list of at most three entries. -/
theorem parse_completions_strategies_witness :
    parse_completions ⟨fun _ => none⟩ "[" = [] ∧
    (∀ res, run_result ⟨fun _ => none⟩ "'aa' 'bb' 'cc' 'dd'" =
      Except.ok res → res.length ≤ 3) :=
  ⟨(parse_completions_strategies ⟨fun _ => none⟩ "[").2.1
      (by decide) (by decide) (by decide) (by decide),
    (parse_completions_strategies ⟨fun _ => none⟩ "'aa' 'bb' 'cc' 'dd'").2.2⟩

/-! ### Dictionary-loading lemmas (for C5 and C10) -/

theorem wordsOf_exists {dm : DictionaryManager} {W K : String}
    (hW : W ∈ dm.wordsOf K) :
    ∃ l, dm.lookup K = some l ∧ W ∈ l := by
  unfold DictionaryManager.wordsOf at hW
  cases hl : dm.lookup K with
  | none => rw [hl] at hW; simp at hW
  | some l => rw [hl] at hW; exact ⟨l, rfl, hW⟩

theorem wordsOf_eq_of_lookup {dm : DictionaryManager} {K : String}
    {l : List String} (hl : dm.lookup K = some l) : dm.wordsOf K = l := by
  unfold DictionaryManager.wordsOf
  rw [hl]
  rfl

/-- `registerEntry` when the word is already present: a complete no-op. -/
theorem registerEntry_of_mem {dm : DictionaryManager} {h p : String}
    {l : List String} (hl : dm.lookup p = some l) (hmem : h ∈ l)
    (f : Int) : dm.registerEntry h p f = dm := by
  unfold DictionaryManager.registerEntry
  have hnone : (dictFind? dm.word_dict p).isNone = false := by
    unfold DictionaryManager.lookup at hl
    rw [hl]
    rfl
  simp only [hnone, Bool.false_eq_true, if_false]
  rw [if_pos (by rw [wordsOf_eq_of_lookup hl]; exact hmem)]

/-- `registerEntry` for a fresh word under an existing key. -/
theorem registerEntry_of_not_mem {dm : DictionaryManager} {h p : String}
    {l : List String} (hl : dm.lookup p = some l) (hmem : h ∉ l)
    (f : Int) :
    dm.registerEntry h p f =
      { dm with
          word_dict := dictSet dm.word_dict p (l ++ [h])
          word_freq_dict := dictSet dm.word_freq_dict (h, p) f } := by
  unfold DictionaryManager.registerEntry
  have hnone : (dictFind? dm.word_dict p).isNone = false := by
    unfold DictionaryManager.lookup at hl
    rw [hl]
    rfl
  simp only [hnone, Bool.false_eq_true, if_false]
  rw [if_neg (by rw [wordsOf_eq_of_lookup hl]; exact hmem)]
  rw [wordsOf_eq_of_lookup hl]

/-- `registerEntry` for a fresh key. -/
theorem registerEntry_of_no_key {dm : DictionaryManager} {h p : String}
    (hl : dm.lookup p = none) (f : Int) :
    dm.registerEntry h p f =
      { dm with
          word_dict := dictSet (dictSet dm.word_dict p []) p [h]
          word_freq_dict := dictSet dm.word_freq_dict (h, p) f } := by
  unfold DictionaryManager.registerEntry
  have hnone : (dictFind? dm.word_dict p).isNone = true := by
    unfold DictionaryManager.lookup at hl
    rw [hl]
    rfl
  simp only [hnone, if_true]
  have hw1 : ({ dm with word_dict := dictSet dm.word_dict p [] } :
      DictionaryManager).wordsOf p = [] := by
    apply wordsOf_eq_of_lookup
    unfold DictionaryManager.lookup
    simp [dictFind?_dictSet_self]
  rw [if_neg (by rw [hw1]; simp), hw1]
  simp

theorem registerEntry_preserves (dm : DictionaryManager)
    (W K h p : String) (f : Int) (hW : W ∈ dm.wordsOf K) :
    ∃ ext, (dm.registerEntry h p f).wordsOf K = dm.wordsOf K ++ ext ∧
      (dm.registerEntry h p f).get_word_frequency W K =
        dm.get_word_frequency W K := by
  obtain ⟨lK, hlK, hWl⟩ := wordsOf_exists hW
  by_cases hpK : p = K
  · subst hpK
    by_cases hmem : h ∈ lK
    · rw [registerEntry_of_mem hlK hmem f]
      exact ⟨[], by simp⟩
    · rw [registerEntry_of_not_mem hlK hmem f]
      refine ⟨[h], ?_, ?_⟩
      · rw [wordsOf_eq_of_lookup hlK]
        apply wordsOf_eq_of_lookup
        unfold DictionaryManager.lookup
        simp [dictFind?_dictSet_self]
      · have hne : h ≠ W := fun hc => hmem (hc ▸ hWl)
        unfold DictionaryManager.get_word_frequency
        rw [dictFind?_dictSet_ne _ _ _ _ (by simp [hne.symm])]
  · have hKp : (K : String) ≠ p := fun hc => hpK hc.symm
    have hpair : ((W, K) : String × String) ≠ (h, p) := by
      intro hc
      exact hpK (congrArg Prod.snd hc).symm
    have hlook : ∀ (wd : List (String × List String)) (v : List String),
        dictFind? (dictSet wd p v) K = dictFind? wd K :=
      fun wd v => dictFind?_dictSet_ne wd p K v hKp
    cases hlp : dm.lookup p with
    | some lp =>
      by_cases hmem : h ∈ lp
      · rw [registerEntry_of_mem hlp hmem f]
        exact ⟨[], by simp⟩
      · rw [registerEntry_of_not_mem hlp hmem f]
        refine ⟨[], ?_, ?_⟩
        · unfold DictionaryManager.wordsOf DictionaryManager.lookup
          simp [hlook]
        · unfold DictionaryManager.get_word_frequency
          rw [dictFind?_dictSet_ne _ _ _ _ hpair]
    | none =>
      rw [registerEntry_of_no_key hlp f]
      refine ⟨[], ?_, ?_⟩
      · unfold DictionaryManager.wordsOf DictionaryManager.lookup
        simp [hlook]
      · unfold DictionaryManager.get_word_frequency
        rw [dictFind?_dictSet_ne _ _ _ _ hpair]

theorem processLine_preserves (dm : DictionaryManager) (W K : String)
    (line : String) (hW : W ∈ dm.wordsOf K) :
    ∃ ext, (dm.processLine line).wordsOf K = dm.wordsOf K ++ ext ∧
      (dm.processLine line).get_word_frequency W K =
        dm.get_word_frequency W K := by
  simp only [DictionaryManager.processLine]
  split
  · exact ⟨[], by simp⟩
  · split
    · exact registerEntry_preserves dm W K _ _ _ hW
    · exact ⟨[], by simp⟩

theorem loadLines_preserves (dm : DictionaryManager) (W K : String)
    (hW : W ∈ dm.wordsOf K) (B : List String) :
    ∃ ext, (dm.loadLines B).wordsOf K = dm.wordsOf K ++ ext ∧
      (dm.loadLines B).get_word_frequency W K =
        dm.get_word_frequency W K := by
  induction B generalizing dm with
  | nil => exact ⟨[], by simp [DictionaryManager.loadLines]⟩
  | cons line B' ih =>
    obtain ⟨e1, hw1, hf1⟩ := processLine_preserves dm W K line hW
    have hW1 : W ∈ (dm.processLine line).wordsOf K := by
      rw [hw1]
      exact List.mem_append_left _ hW
    obtain ⟨e2, hw2, hf2⟩ := ih (dm.processLine line) hW1
    have hstep : (dm.loadLines (line :: B')) =
        ((dm.processLine line).loadLines B') := rfl
    exact ⟨e1 ++ e2, by rw [hstep, hw2, hw1, List.append_assoc],
      by rw [hstep, hf2, hf1]⟩

/-- C5: first-loaded source wins.  Once a word `W` is registered under key
`K`, (a) registering it again is a complete no-op on the dictionary state,
and (b) loading any further source lines `B` never changes the recorded
frequency of `(W, K)` and only ever appends to the word list of `K`, so
`W` keeps both its position (tie-break rank) and its first-recorded
frequency. -/
theorem first_loaded_wins (dm : DictionaryManager) (W K : String)
    (hW : W ∈ dm.wordsOf K) (B : List String) :
    (∀ f : Int, dm.registerEntry W K f = dm) ∧
    (dm.loadLines B).get_word_frequency W K = dm.get_word_frequency W K ∧
    ((dm.loadLines B).wordsOf K).indexOf W = (dm.wordsOf K).indexOf W ∧
    W ∈ (dm.loadLines B).wordsOf K := by
  obtain ⟨l, hl, hWl⟩ := wordsOf_exists hW
  obtain ⟨ext, hwords, hfreq⟩ := loadLines_preserves dm W K hW B
  refine ⟨fun f => registerEntry_of_mem hl hWl f, hfreq, ?_, ?_⟩
  · rw [hwords]
    exact List.indexOf_append_of_mem hW
  · rw [hwords]
    exact List.mem_append_left _ hW

/-- Witness for C5: two sources both defining `好` for key `hao`; after
loading further lines that re-define it with frequency 999, the frequency
and position recorded for `(好, hao)` are still the first-loaded ones. -/
theorem first_loaded_wins_witness :
    (∀ f : Int,
      DictionaryManager.registerEntry
        { word_dict := [("hao", ["好", "号"])],
          word_freq_dict := [(("好", "hao"), 80), (("号", "hao"), 7)] }
        "好" "hao" f =
      { word_dict := [("hao", ["好", "号"])],
        word_freq_dict := [(("好", "hao"), 80), (("号", "hao"), 7)] }) ∧
    (DictionaryManager.loadLines
        { word_dict := [("hao", ["好", "号"])],
          word_freq_dict := [(("好", "hao"), 80), (("号", "hao"), 7)] }
        ["好\thao\t999", "毫\thao\t3"]).get_word_frequency "好" "hao" = 80 ∧
    ((DictionaryManager.loadLines
        { word_dict := [("hao", ["好", "号"])],
          word_freq_dict := [(("好", "hao"), 80), (("号", "hao"), 7)] }
        ["好\thao\t999", "毫\thao\t3"]).wordsOf "hao").indexOf "好" = 0 := by
  have h := first_loaded_wins
    { word_dict := [("hao", ["好", "号"])],
      word_freq_dict := [(("好", "hao"), 80), (("号", "hao"), 7)] }
    "好" "hao" (by decide) ["好\thao\t999", "毫\thao\t3"]
  exact ⟨h.1, h.2.1.trans (by decide), h.2.2.1.trans (by decide)⟩

theorem registerEntry_fresh_result (dm : DictionaryManager)
    (h p : String) (f : Int) (hfresh : h ∉ dm.wordsOf p) :
    h ∈ (dm.registerEntry h p f).wordsOf p ∧
    (dm.registerEntry h p f).get_word_frequency h p = f := by
  cases hlp : dm.lookup p with
  | some l =>
    have hnl : h ∉ l := by
      rw [← wordsOf_eq_of_lookup hlp]
      exact hfresh
    rw [registerEntry_of_not_mem hlp hnl f]
    constructor
    · rw [wordsOf_eq_of_lookup (by
        unfold DictionaryManager.lookup
        exact dictFind?_dictSet_self _ _ _)]
      simp
    · unfold DictionaryManager.get_word_frequency
      rw [dictFind?_dictSet_self]
      rfl
  | none =>
    rw [registerEntry_of_no_key hlp f]
    constructor
    · rw [wordsOf_eq_of_lookup (by
        unfold DictionaryManager.lookup
        exact dictFind?_dictSet_self _ _ _)]
      simp
    · unfold DictionaryManager.get_word_frequency
      rw [dictFind?_dictSet_self]
      rfl

/-- C10: a dictionary body line whose surface and key fields are valid but
whose third (frequency) field does not parse as an integer is not skipped:
the entry is registered anyway, its frequency silently defaulting to the
baseline value 1, and (the embedding being total) loading never raises. -/
theorem unparseable_freq_defaults_to_one (dm : DictionaryManager)
    (line hz py junk : String)
    (hstrip : pyStrip line = line)
    (hne : line ≠ "")
    (hhash : pyStartsWith line "#" = false)
    (hsplit : pySplit line '\t' = [hz, py, junk])
    (hjunk : pyInt? junk = none)
    (hfresh : hz ∉ dm.wordsOf (removeSpaces py)) :
    dm.processLine line = dm.registerEntry hz (removeSpaces py) 1 ∧
    hz ∈ (dm.processLine line).wordsOf (removeSpaces py) ∧
    (dm.processLine line).get_word_frequency hz (removeSpaces py) = 1 := by
  have heq : dm.processLine line = dm.registerEntry hz (removeSpaces py) 1 := by
    simp only [DictionaryManager.processLine, hstrip, hsplit, hjunk]
    rw [if_neg (by simp [hne, hhash])]
    simp [hjunk]
  refine ⟨heq, ?_, ?_⟩
  · rw [heq]
    exact (registerEntry_fresh_result dm hz (removeSpaces py) 1 hfresh).1
  · rw [heq]
    exact (registerEntry_fresh_result dm hz (removeSpaces py) 1 hfresh).2

/-- Witness for C10: on an empty dictionary, the line `字⟨TAB⟩zi x⟨TAB⟩abc`
(whose frequency field `abc` is unparseable) registers `字` under key `zix`
with frequency 1. -/
theorem unparseable_freq_defaults_to_one_witness :
    "字" ∈ (DictionaryManager.processLine
      { word_dict := [], word_freq_dict := [] }
      "字\tzi x\tabc").wordsOf "zix" ∧
    (DictionaryManager.processLine
      { word_dict := [], word_freq_dict := [] }
      "字\tzi x\tabc").get_word_frequency "字" "zix" = 1 := by
  have h := unparseable_freq_defaults_to_one
    { word_dict := [], word_freq_dict := [] }
    "字\tzi x\tabc" "字" "zi x" "abc"
    (by decide) (by decide) (by decide) (by decide) (by decide) (by decide)
  have hkey : removeSpaces "zi x" = "zix" := by decide
  refine ⟨?_, ?_⟩
  · have := h.2.1
    rw [hkey] at this
    exact this
  · have := h.2.2
    rw [hkey] at this
    exact this

/-! ### Pagination lemmas (for C8) -/

theorem show_current_of_lt (st : InputManager) (hsize : 0 < st.page_size)
    (h : st.current_page * st.page_size < st.full_candidates.length) :
    st.show_current_page_candidates =
      { st with
          candidates := (st.full_candidates.drop
            (st.current_page * st.page_size)).take
            (min (st.current_page * st.page_size + st.page_size)
                st.full_candidates.length -
              st.current_page * st.page_size)
          window_visible := true } := by
  rw [InputManager.show_current_page_candidates]
  have hfne : ¬ st.full_candidates = [] := by
    intro hc
    rw [hc] at h
    simp at h
  rw [if_neg hfne]
  have hcs : ((st.full_candidates.drop
      (st.current_page * st.page_size)).take
      (min (st.current_page * st.page_size + st.page_size)
          st.full_candidates.length -
        st.current_page * st.page_size)) ≠ [] := by
    have hlen : ((st.full_candidates.drop
        (st.current_page * st.page_size)).take
        (min (st.current_page * st.page_size + st.page_size)
            st.full_candidates.length -
          st.current_page * st.page_size)).length > 0 := by
      rw [List.length_take, List.length_drop]
      omega
    exact List.ne_nil_of_length_pos hlen
  simp only [hcs, if_true, ne_eq, not_false_eq_true, if_pos]

/-- C8: pagination boundaries with page size 5.  `next_page` succeeds and
moves to the next page exactly when the current page is strictly below
`ceil(total/5) - 1` (computed as `(total + 4)/5 - 1` in integers, which is
`-1` on an empty list); at the boundary it returns the state unchanged
without recomputing anything.  On success only the visible slice is
recomputed — the full candidate list is untouched.  `previous_page`
succeeds exactly when the current page is positive and is a no-op at page
0; on success from a state whose previous page holds data, it lands on
`current_page - 1` with the full list untouched. -/
theorem pagination_boundaries (st : InputManager) (h5 : st.page_size = 5) :
    ((st.next_page).2 = true ↔
      (st.current_page : Int) <
        ((st.full_candidates.length : Int) + 4) / 5 - 1) ∧
    ((st.next_page).2 = false → st.next_page = (st, false)) ∧
    ((st.next_page).2 = true →
      (st.next_page).1.current_page = st.current_page + 1 ∧
      (st.next_page).1.full_candidates = st.full_candidates ∧
      (st.next_page).1.pinyin_buffer = st.pinyin_buffer ∧
      (st.next_page).1.candidates =
        (st.full_candidates.drop ((st.current_page + 1) * 5)).take
          (min ((st.current_page + 1) * 5 + 5) st.full_candidates.length -
            (st.current_page + 1) * 5)) ∧
    ((st.previous_page).2 = true ↔ 0 < st.current_page) ∧
    ((st.previous_page).2 = false → st.previous_page = (st, false)) ∧
    ((st.previous_page).2 = true →
      (st.current_page - 1) * 5 < st.full_candidates.length →
      (st.previous_page).1.current_page = st.current_page - 1 ∧
      (st.previous_page).1.full_candidates = st.full_candidates) := by
  have harith : ((st.full_candidates.length : Int) + (st.page_size : Int)
      - 1) / (st.page_size : Int) - 1 =
      ((st.full_candidates.length : Int) + 4) / 5 - 1 := by
    rw [h5]
    push_cast
    omega
  have hcond : ((st.current_page : Int) <
      ((st.full_candidates.length : Int) + (st.page_size : Int) - 1) /
        (st.page_size : Int) - 1) ↔
      ((st.current_page : Int) <
        ((st.full_candidates.length : Int) + 4) / 5 - 1) := by
    rw [harith]
  refine ⟨?_, ?_, ?_, ?_, ?_, ?_⟩
  · simp only [InputManager.next_page]
    split
    · rename_i hlt
      simp only [true_iff]
      exact hcond.mp hlt
    · rename_i hlt
      simp only [Bool.false_eq_true, false_iff]
      exact fun hc => hlt (hcond.mpr hc)
  · simp only [InputManager.next_page]
    split
    · simp
    · intro
      rfl
  · simp only [InputManager.next_page]
    split
    · rename_i hlt
      intro
      have hlt' : (st.current_page : Int) <
          ((st.full_candidates.length : Int) + 4) / 5 - 1 := hcond.mp hlt
      have hlen : (st.current_page + 1) * 5 <
          st.full_candidates.length := by omega
      have hres := show_current_of_lt
        { st with current_page := st.current_page + 1 }
        (by simp [h5]) (by simpa [h5] using hlen)
      rw [hres]
      refine ⟨rfl, rfl, rfl, ?_⟩
      simp [h5]
    · intro hc
      simp at hc
  · simp only [InputManager.previous_page]
    split
    · rename_i hpos
      simp only [true_iff]
      exact hpos
    · rename_i hpos
      simp only [Bool.false_eq_true, false_iff]
      exact hpos
  · simp only [InputManager.previous_page]
    split
    · simp
    · intro
      rfl
  · simp only [InputManager.previous_page]
    split
    · rename_i hpos
      intro _ hlen
      have hres := show_current_of_lt
        { st with current_page := st.current_page - 1 }
        (by simp [h5]) (by simpa [h5] using hlen)
      rw [hres]
      exact ⟨rfl, rfl⟩
    · intro hc
      simp at hc

/-- The 12-candidate demonstration states of the C8 scenario. -/
def pageDemo0 : InputManager :=
  { pinyin_buffer := "ni", candidates := ["c1", "c2", "c3", "c4", "c5"],
    full_candidates := ["c1", "c2", "c3", "c4", "c5", "c6", "c7", "c8",
      "c9", "c10", "c11", "c12"],
    current_page := 0, page_size := 5, is_active := true,
    ai_completions := [], is_ai_mode := false, last_input_text := "",
    last_input_pinyin := "", window_visible := true }

def pageDemo2 : InputManager :=
  { pageDemo0 with current_page := 2, candidates := ["c11", "c12"] }

/-- Witness for C8: with 12 candidates and page size 5 there are 3 pages;
from page 0 `next_page` succeeds onto page 1 showing the second
five-candidate slice, from page 2 (the last page) `next_page` is a no-op,
and `previous_page` at page 0 is a no-op. -/
theorem pagination_boundaries_witness :
    ((pageDemo0.next_page).2 = true ∧
      (pageDemo0.next_page).1.current_page = 1 ∧
      (pageDemo0.next_page).1.candidates = ["c6", "c7", "c8", "c9", "c10"]) ∧
    pageDemo2.next_page = (pageDemo2, false) ∧
    pageDemo0.previous_page = (pageDemo0, false) := by
  have h0 := pagination_boundaries pageDemo0 rfl
  have h2 := pagination_boundaries pageDemo2 rfl
  have hsucc : (pageDemo0.next_page).2 = true := h0.1.mpr (by decide)
  have hparts := h0.2.2.1 hsucc
  refine ⟨⟨hsucc, hparts.1, hparts.2.2.2.trans (by decide)⟩, ?_, ?_⟩
  · exact h2.2.1 (by decide)
  · exact h0.2.2.2.2.1 (by decide)

/-- C6: lattice cell bound.  (a) After every single insertion (i.e. on every
generated-candidate sequence, hence every intermediate stage of a cell's
construction) a cell holds at most 30 entries; (b) the capped fold is
exactly "stable-sort by score descending, keep the top 30" — when more than
30 candidates were generated only the lowest-scoring entries are evicted,
and with at most 30 candidates nothing is evicted or reordered; (c) cell 0
of the lattice is exactly the empty phrase at score 0. -/
theorem lattice_cell_bound (dm : DictionaryManager) (cs : List Char)
    (dp : List (List (String × Int))) (i : Nat) :
    (∀ k : Nat, (((cellCands dm cs dp i).take k).foldl capInsert []).length
      ≤ 30) ∧
    (buildCell dm cs dp i =
      if (cellCands dm cs dp i).length ≤ 30 then cellCands dm cs dp i
      else (pySortDesc (fun x => x.2) (cellCands dm cs dp i)).take 30) ∧
    (segmentDP dm cs).getD 0 [] = [("", 0)] := by
  refine ⟨?_, ?_, ?_⟩
  · intro k
    exact foldl_capInsert_length_le _
  · exact foldl_capInsert_eq _
  · unfold segmentDP
    have hgen : ∀ (l : List Nat) (dp0 : List (List (String × Int))),
        dp0 ≠ [] →
        (l.foldl (fun dp k => dp ++ [buildCell dm cs dp (k + 1)])
          dp0).getD 0 [] = dp0.getD 0 [] := by
      intro l
      induction l with
      | nil => intro dp0 _; rfl
      | cons k l' ih =>
        intro dp0 hne
        have h1 : (dp0 ++ [buildCell dm cs dp0 (k + 1)]).getD 0 [] =
            dp0.getD 0 [] :=
          List.getD_append _ _ _ 0 (List.length_pos.mpr hne)
        calc ((k :: l').foldl
              (fun dp k => dp ++ [buildCell dm cs dp (k + 1)]) dp0).getD 0 []
            = (l'.foldl (fun dp k => dp ++ [buildCell dm cs dp (k + 1)])
                (dp0 ++ [buildCell dm cs dp0 (k + 1)])).getD 0 [] := rfl
          _ = (dp0 ++ [buildCell dm cs dp0 (k + 1)]).getD 0 [] :=
              ih _ (by simp)
          _ = dp0.getD 0 [] := h1
    rw [hgen (List.range cs.length) [[("", 0)]] (by simp)]
    rfl

/-! ### Candidate-list decomposition lemmas (for C4) -/

theorem foldl_extends {β : Type} (g : List String → β → List String)
    (hg : ∀ acc b, ∃ t, g acc b = acc ++ t) :
    ∀ (l : List β) (acc : List String), ∃ t, l.foldl g acc = acc ++ t
  | [], acc => ⟨[], by simp⟩
  | b :: l', acc => by
    obtain ⟨t1, ht1⟩ := hg acc b
    obtain ⟨t2, ht2⟩ := foldl_extends g hg l' (g acc b)
    exact ⟨t1 ++ t2, by rw [List.foldl_cons, ht2, ht1, List.append_assoc]⟩

theorem appendIfNew_extends (cands : List String) (hanzi : String) :
    ∃ t, appendIfNew cands hanzi = cands ++ t := by
  unfold appendIfNew
  by_cases hmem : hanzi ∈ cands
  · exact ⟨[], by simp [hmem]⟩
  · exact ⟨[hanzi], by simp [hmem]⟩

theorem step4Fold_extends (dm' : DictionaryManager)
    (groups : List (List String)) (cands : List String) :
    ∃ t, step4Fold dm' groups cands = cands ++ t := by
  unfold step4Fold
  apply foldl_extends
  intro acc grp
  apply foldl_extends
  intro acc' char_pinyin
  cases dm'.lookup char_pinyin with
  | none => exact ⟨[], by simp⟩
  | some hanzi_list =>
    by_cases he : hanzi_list = []
    · exact ⟨[], by simp [he]⟩
    · simp only [he, if_false]
      exact foldl_extends appendIfNew appendIfNew_extends hanzi_list acc'

theorem step5Fold_extends (pinyin_str : String) (cands : List String) :
    ∃ t, step5Fold pinyin_str cands = cands ++ t := by
  unfold step5Fold
  cases dictFind? common_mappings pinyin_str with
  | none => exact ⟨[], by simp⟩
  | some ws => exact foldl_extends appendIfNew appendIfNew_extends ws cands

/-- For a non-empty input, the candidate list is the first-occurrence
deduplication of the curated-phrase list followed by everything else. -/
theorem get_candidates_decomp (e : PinyinEngine) (s : String)
    (hs : s ≠ "") :
    ∃ rest, (e.get_candidates s).1 =
      dedupFirst ((dictFind? common_phrases s).getD [] ++ rest) := by
  obtain ⟨t4, ht4⟩ := step4Fold_extends
    (e.dict_manager.get_candidates s (-1)).2 (e.pypinyinF s)
    ((dictFind? common_phrases s).getD [] ++ e.segment s ++
      (e.dict_manager.get_candidates s (-1)).1)
  obtain ⟨t5, ht5⟩ := step5Fold_extends s
    (step4Fold (e.dict_manager.get_candidates s (-1)).2 (e.pypinyinF s)
      ((dictFind? common_phrases s).getD [] ++ e.segment s ++
        (e.dict_manager.get_candidates s (-1)).1))
  refine ⟨e.segment s ++ (e.dict_manager.get_candidates s (-1)).1 ++
    t4 ++ t5, ?_⟩
  simp only [PinyinEngine.get_candidates, if_neg hs]
  rw [ht5, ht4]
  simp [List.append_assoc]

/-- C4: scoring and curated ranking.  The segmentation score of a word for
a key is its dictionary frequency plus, exactly when the pair appears in
the curated common-phrase table, a bonus of `10000 − position·1000`
(position = the word's index in the curated list); and in the final
candidate list for a curated key every curated phrase is ranked strictly
before every non-curated candidate, regardless of the non-curated
candidate's frequency. -/
theorem word_score_and_curated_rank :
    (∀ (dm : DictionaryManager) (word pinyin : String) (l : List String),
      dictFind? common_phrases pinyin = some l → word ∈ l →
      PinyinEngine.get_word_score dm word pinyin =
        dm.get_word_frequency word pinyin +
          (10000 - (l.indexOf word : Int) * 1000)) ∧
    (∀ (dm : DictionaryManager) (word pinyin : String),
      (∀ l, dictFind? common_phrases pinyin = some l → word ∉ l) →
      PinyinEngine.get_word_score dm word pinyin =
        dm.get_word_frequency word pinyin) ∧
    (∀ (e : PinyinEngine) (s : String) (CL : List String) (w w' : String),
      dictFind? common_phrases s = some CL → w ∈ CL → w' ∉ CL →
      w' ∈ (e.get_candidates s).1 →
      ((e.get_candidates s).1).indexOf w <
        ((e.get_candidates s).1).indexOf w') := by
  refine ⟨?_, ?_, ?_⟩
  · intro dm word pinyin l hl hmem
    unfold PinyinEngine.get_word_score
    rw [hl]
    simp [hmem]
  · intro dm word pinyin hno
    unfold PinyinEngine.get_word_score
    cases hl : dictFind? common_phrases pinyin with
    | none => rfl
    | some l => simp [hno l hl]
  · intro e s CL w w' hCL hw hw' hmem
    by_cases hs : s = ""
    · subst hs
      have : (e.get_candidates "").1 = [] := by
        simp [PinyinEngine.get_candidates]
      rw [this] at hmem
      cases hmem
    · obtain ⟨rest, hout⟩ := get_candidates_decomp e s hs
      rw [hCL] at hout
      simp only [Option.getD_some] at hout
      obtain ⟨t, ht, hfresh⟩ := dedupFirst_append CL rest
      rw [ht] at hout
      have hwD : w ∈ dedupFirst CL := (mem_dedupFirst CL w).mpr hw
      have hw'D : w' ∉ dedupFirst CL :=
        fun hc => hw' ((mem_dedupFirst CL w').mp hc)
      rw [hout]
      rw [List.indexOf_append_of_mem hwD,
        List.indexOf_append_of_not_mem hw'D]
      have hlt : (dedupFirst CL).indexOf w < (dedupFirst CL).length :=
        List.indexOf_lt_length.mpr hwD
      omega

/-- The dictionary and engine of the C4 scenario: `你好` has frequency 5,
the non-curated `拟好` has frequency 9000. -/
def curatedDemoDM : DictionaryManager :=
  { word_dict := [("nihao", ["你好", "拟好"])],
    word_freq_dict := [(("你好", "nihao"), 5), (("拟好", "nihao"), 9000)] }

def curatedDemoEngine : PinyinEngine :=
  { dict_manager := curatedDemoDM, pypinyinF := fun s => [[s]] }

/-- Witness for C4: with `("你好", "nihao", freq = 5)` in the dictionary
and a non-curated word `拟好` of much higher raw frequency 9000,
`get_word_score` gives `你好` its curated bonus `5 + 10000` while `拟好`
keeps its bare frequency, and `get_candidates "nihao"` ranks `你好`
(curated, position 0) strictly before `拟好`. -/
theorem word_score_and_curated_rank_witness :
    PinyinEngine.get_word_score curatedDemoDM "你好" "nihao" =
      5 + (10000 - 0 * 1000) ∧
    PinyinEngine.get_word_score curatedDemoDM "拟好" "nihao" = 9000 ∧
    ((curatedDemoEngine.get_candidates "nihao").1.indexOf "你好" <
      (curatedDemoEngine.get_candidates "nihao").1.indexOf "拟好") := by
  refine ⟨?_, ?_, ?_⟩
  · have h := word_score_and_curated_rank.1 curatedDemoDM "你好" "nihao"
      ["你好", "您好", "你好啊"] (by decide) (by decide)
    rw [h]
    decide
  · apply word_score_and_curated_rank.2.1 curatedDemoDM "拟好" "nihao"
    intro l hl
    have hCL : dictFind? common_phrases "nihao" =
        some ["你好", "您好", "你好啊"] := by decide
    rw [hCL] at hl
    have hleq : l = ["你好", "您好", "你好啊"] := by
      injection hl with hv
      exact hv.symm
    rw [hleq]
    decide
  · exact word_score_and_curated_rank.2.2 curatedDemoEngine "nihao"
      ["你好", "您好", "你好啊"] "你好" "拟好"
      (by decide) (by decide) (by decide) (by decide)

/-! ### Segmentation soundness and completeness (for C1) -/

/-- A derivation that the first `i` characters of the input decompose into
consecutive substrings, each a registered dictionary key, with the phrase
equal to the concatenation of one looked-up word per substring. -/
inductive SegDeriv (dm : DictionaryManager) (cs : List Char) :
    Nat → String → Prop where
  | nil : SegDeriv dm cs 0 ""
  | step {j i : Nat} {p w : String} {ws : List String} :
      SegDeriv dm cs j p → j < i →
      dm.lookup (subStr cs j i) = some ws → w ∈ ws →
      SegDeriv dm cs i (p ++ w)

/-- The lattice after the first `m` outer iterations of `segment`. -/
def segmentDPAux (dm : DictionaryManager) (cs : List Char) :
    Nat → List (List (String × Int))
  | 0 => [[("", 0)]]
  | m + 1 =>
    segmentDPAux dm cs m ++
      [buildCell dm cs (segmentDPAux dm cs m) (m + 1)]

theorem segmentDPAux_length (dm : DictionaryManager) (cs : List Char) :
    ∀ m, (segmentDPAux dm cs m).length = m + 1
  | 0 => rfl
  | m + 1 => by
    simp [segmentDPAux, segmentDPAux_length dm cs m]

theorem segmentDP_eq_aux (dm : DictionaryManager) (cs : List Char) :
    segmentDP dm cs = segmentDPAux dm cs cs.length := by
  unfold segmentDP
  generalize cs.length = n
  induction n with
  | zero => rfl
  | succ m ih =>
    rw [List.range_succ, List.foldl_append, ih]
    simp [segmentDPAux]

theorem getD_append_last {α : Type} (l : List α) (x : α) (d : α) :
    (l ++ [x]).getD l.length d = x := by
  rw [List.getD_eq_getElem?_getD,
    List.getElem?_append_right (le_refl l.length)]
  simp

theorem segmentDPAux_getD_le (dm : DictionaryManager) (cs : List Char)
    {m₁ m₂ : Nat} (h : m₁ ≤ m₂) (j : Nat) (hj : j < m₁ + 1) :
    (segmentDPAux dm cs m₂).getD j [] =
      (segmentDPAux dm cs m₁).getD j [] := by
  induction m₂ with
  | zero =>
    have : m₁ = 0 := by omega
    rw [this]
  | succ m ih =>
    rcases Nat.lt_or_ge m₁ (m + 1) with hlt | hge
    · have h' : m₁ ≤ m := by omega
      have hstep : (segmentDPAux dm cs (m + 1)).getD j [] =
          (segmentDPAux dm cs m).getD j [] := by
        show ((segmentDPAux dm cs m) ++
          [buildCell dm cs (segmentDPAux dm cs m) (m + 1)]).getD j [] = _
        exact List.getD_append _ _ _ j
          (by rw [segmentDPAux_length]; omega)
      rw [hstep]
      exact ih h'
    · have : m₁ = m + 1 := by omega
      rw [this]

theorem cellCands_congr (dm : DictionaryManager) (cs : List Char)
    (dp₁ dp₂ : List (List (String × Int))) (i : Nat)
    (h : ∀ j, j < i → dp₁.getD j [] = dp₂.getD j []) :
    cellCands dm cs dp₁ i = cellCands dm cs dp₂ i := by
  unfold cellCands
  rw [List.flatMap_def, List.flatMap_def]
  apply congrArg List.flatten
  apply List.map_congr_left
  intro j hj
  rw [h j (List.mem_range.mp hj)]

theorem segmentDPAux_cell (dm : DictionaryManager) (cs : List Char) :
    ∀ m i, 1 ≤ i → i ≤ m →
      (segmentDPAux dm cs m).getD i [] =
        (cellCands dm cs (segmentDPAux dm cs m) i).foldl capInsert [] := by
  intro m
  induction m with
  | zero =>
    intro i h1 h0
    omega
  | succ m ih =>
    intro i h1 hle
    rcases Nat.lt_or_ge i (m + 1) with hlt | hge
    · have hi : i ≤ m := by omega
      have hstable := segmentDPAux_getD_le dm cs (Nat.le_succ m) i
        (by omega)
      rw [hstable, ih i h1 hi]
      congr 1
      apply cellCands_congr
      intro j hj
      exact (segmentDPAux_getD_le dm cs (Nat.le_succ m) j (by omega)).symm
    · have hieq : i = m + 1 := by omega
      subst hieq
      have hcell : (segmentDPAux dm cs (m + 1)).getD (m + 1) [] =
          buildCell dm cs (segmentDPAux dm cs m) (m + 1) := by
        show ((segmentDPAux dm cs m) ++
          [buildCell dm cs (segmentDPAux dm cs m) (m + 1)]).getD (m + 1) []
          = _
        have hlen := segmentDPAux_length dm cs m
        rw [← hlen]
        exact getD_append_last _ _ _
      rw [hcell]
      unfold buildCell
      congr 1
      apply cellCands_congr
      intro j hj
      exact (segmentDPAux_getD_le dm cs (Nat.le_succ m) j
        (by omega)).symm

theorem segmentDPAux_sound (dm : DictionaryManager) (cs : List Char) :
    ∀ m i pr, pr ∈ (segmentDPAux dm cs m).getD i [] →
      SegDeriv dm cs i pr.1 := by
  intro m
  induction m with
  | zero =>
    intro i pr hpr
    cases i with
    | zero =>
      simp only [segmentDPAux, List.getD] at hpr
      simp at hpr
      rw [hpr]
      exact SegDeriv.nil
    | succ i' =>
      rw [List.getD_eq_default _ _ (by simp [segmentDPAux])] at hpr
      cases hpr
  | succ m ih =>
    intro i pr hpr
    rcases Nat.lt_or_ge i (m + 1) with hlt | hge
    · rw [segmentDPAux_getD_le dm cs (Nat.le_succ m) i (by omega)] at hpr
      exact ih i pr hpr
    · rcases Nat.lt_or_ge i (m + 2) with hlt2 | hge2
      · have hieq : i = m + 1 := by omega
        subst hieq
        have hcell : (segmentDPAux dm cs (m + 1)).getD (m + 1) [] =
            buildCell dm cs (segmentDPAux dm cs m) (m + 1) := by
          show ((segmentDPAux dm cs m) ++
            [buildCell dm cs (segmentDPAux dm cs m) (m + 1)]).getD (m + 1)
            [] = _
          have hlen := segmentDPAux_length dm cs m
          rw [← hlen]
          exact getD_append_last _ _ _
        rw [hcell] at hpr
        have hgen : pr ∈ cellCands dm cs (segmentDPAux dm cs m) (m + 1) :=
          mem_foldl_capInsert hpr
        unfold cellCands at hgen
        obtain ⟨j, hjmem, hbranch⟩ := List.mem_flatMap.mp hgen
        have hjlt : j < m + 1 := List.mem_range.mp hjmem
        by_cases hdpj : (segmentDPAux dm cs m).getD j [] = []
        · rw [if_pos hdpj] at hbranch
          cases hbranch
        · rw [if_neg hdpj] at hbranch
          cases hlk : dm.lookup (subStr cs j (m + 1)) with
          | none =>
            rw [hlk] at hbranch
            dsimp only at hbranch
            cases hbranch
          | some words =>
            rw [hlk] at hbranch
            dsimp only at hbranch
            by_cases hwe : words = []
            · rw [if_pos hwe] at hbranch
              cases hbranch
            · rw [if_neg hwe] at hbranch
              obtain ⟨w, hw, hmap⟩ := List.mem_flatMap.mp hbranch
              obtain ⟨pr', hpr', heq⟩ := List.mem_map.mp hmap
              have hder := ih j pr' hpr'
              rw [← heq]
              exact SegDeriv.step hder hjlt hlk hw
      · rw [List.getD_eq_default _ _
          (by rw [segmentDPAux_length]; omega)] at hpr
        cases hpr

/-- C1: soundness and completeness of segmentation.  (a) Every phrase that
`segment` returns derives from a decomposition of the input into
consecutive dictionary-key substrings, one looked-up word per substring,
whose spans exactly reconstruct the input (the `SegDeriv` judgement at
index `length`); (b) for every split point `j < i ≤ n` with a non-empty
cell `j`, every dictionary key exactly matching `syllables[j:i]`
contributes, for each of its words and each entry of cell `j`, a transition
into the generated-candidate sequence of cell `i`; and (c) cell `i` is
exactly that sequence subjected to the per-cell size cap. -/
theorem segment_sound_and_complete (e : PinyinEngine) (s : String) :
    (∀ ph ∈ e.segment s,
      SegDeriv e.dict_manager s.data s.data.length ph) ∧
    (∀ i j, j < i → i ≤ s.data.length →
      (segmentDP e.dict_manager s.data).getD j [] ≠ [] →
      ∀ ws, e.dict_manager.lookup (subStr s.data j i) = some ws →
      ∀ w ∈ ws, ∀ pr ∈ (segmentDP e.dict_manager s.data).getD j [],
        (pr.1 ++ w, pr.2 +
            PinyinEngine.get_word_score e.dict_manager w
              (subStr s.data j i)) ∈
          cellCands e.dict_manager s.data
            (segmentDP e.dict_manager s.data) i) ∧
    (∀ i, 1 ≤ i → i ≤ s.data.length →
      (segmentDP e.dict_manager s.data).getD i [] =
        (cellCands e.dict_manager s.data
          (segmentDP e.dict_manager s.data) i).foldl capInsert []) := by
  refine ⟨?_, ?_, ?_⟩
  · intro ph hph
    by_cases hs : s = ""
    · simp only [PinyinEngine.segment, if_pos hs] at hph
      cases hph
    · simp only [PinyinEngine.segment, if_neg hs] at hph
      by_cases hlast :
          (segmentDP e.dict_manager s.data).getD s.data.length [] = []
      · rw [if_pos hlast] at hph
        cases hph
      · rw [if_neg hlast] at hph
        obtain ⟨pr, hpr, hfst⟩ := List.mem_map.mp hph
        have hmem : pr ∈
            (segmentDP e.dict_manager s.data).getD s.data.length [] :=
          (mem_pySortDesc _ _ pr).mp hpr
        rw [segmentDP_eq_aux] at hmem
        have := segmentDPAux_sound e.dict_manager s.data
          s.data.length s.data.length pr hmem
        rw [hfst] at this
        exact this
  · intro i j hji hin hne ws hws w hw pr hpr
    unfold cellCands
    apply List.mem_flatMap.mpr
    refine ⟨j, List.mem_range.mpr hji, ?_⟩
    rw [if_neg hne, hws]
    dsimp only
    rw [if_neg (List.ne_nil_of_mem hw)]
    apply List.mem_flatMap.mpr
    refine ⟨w, hw, ?_⟩
    exact List.mem_map.mpr ⟨pr, hpr, rfl⟩
  · intro i h1 hle
    rw [segmentDP_eq_aux]
    exact segmentDPAux_cell e.dict_manager s.data s.data.length i h1 hle

/-- The three-key dictionary of the C1 scenario. -/
def segDemoDM : DictionaryManager :=
  { word_dict := [("ni", ["你"]), ("hao", ["好"]), ("nihao", ["你好"])],
    word_freq_dict :=
      [(("你", "ni"), 100), (("好", "hao"), 80), (("你好", "nihao"), 5)] }

def segDemoEngine : PinyinEngine :=
  { dict_manager := segDemoDM, pypinyinF := fun s => [[s]] }

/-- Witness for C1: over the demo dictionary, the phrase `你好` returned by
`segment "nihao"` carries a full-cover derivation; the whole-string match
at split point `j = 0` contributes its transition to cell 5's generated
candidates; and cell 5 is the capped fold of those candidates. -/
theorem segment_sound_and_complete_witness :
    SegDeriv segDemoDM ("nihao".data) ("nihao".data.length) "你好" ∧
    (("" ++ "你好", (0 : Int) +
        PinyinEngine.get_word_score segDemoDM "你好"
          (subStr "nihao".data 0 5)) ∈
      cellCands segDemoDM "nihao".data
        (segmentDP segDemoDM "nihao".data) 5) ∧
    (segmentDP segDemoDM "nihao".data).getD 5 [] =
      (cellCands segDemoDM "nihao".data
        (segmentDP segDemoDM "nihao".data) 5).foldl capInsert [] := by
  refine ⟨?_, ?_, ?_⟩
  · exact (segment_sound_and_complete segDemoEngine "nihao").1 "你好"
      (by decide)
  · exact (segment_sound_and_complete segDemoEngine "nihao").2.1 5 0
      (by decide) (by decide) (by decide) ["你好"] (by decide)
      "你好" (by decide) ("", 0) (by decide)
  · exact (segment_sound_and_complete segDemoEngine "nihao").2.2 5
      (by decide) (by decide)

/-! ### First-occurrence "news" machinery (for C3)

`news seen u` is the sequence of first occurrences in `u` of strings not
already in `seen` — exactly what the deduplication fold appends after
`seen`. -/

def news (seen : List String) : List String → List String
  | [] => []
  | c :: u => if c ∈ seen then news seen u else c :: news (seen ++ [c]) u

theorem news_cons_mem {c : String} {s : List String} (u : List String)
    (hc : c ∈ s) : news s (c :: u) = news s u := by
  rw [news, if_pos hc]

theorem news_cons_not_mem {c : String} {s : List String} (u : List String)
    (hc : c ∉ s) : news s (c :: u) = c :: news (s ++ [c]) u := by
  rw [news, if_neg hc]

theorem dedupFold_eq_news :
    ∀ (u acc : List String),
      u.foldl (fun acc c => if c ∈ acc then acc else acc ++ [c]) acc =
        acc ++ news acc u
  | [], acc => by simp [news]
  | c :: u, acc => by
    by_cases hc : c ∈ acc
    · rw [List.foldl_cons, if_pos hc, news_cons_mem u hc]
      exact dedupFold_eq_news u acc
    · rw [List.foldl_cons, if_neg hc, news_cons_not_mem u hc]
      rw [dedupFold_eq_news u (acc ++ [c])]
      simp

theorem dedupFirst_eq_news (u : List String) : dedupFirst u = news [] u := by
  unfold dedupFirst
  rw [dedupFold_eq_news u []]
  simp

theorem news_congr :
    ∀ (u s₁ s₂ : List String), (∀ x, x ∈ s₁ ↔ x ∈ s₂) →
      news s₁ u = news s₂ u
  | [], _, _, _ => rfl
  | c :: u, s₁, s₂, h => by
    by_cases hc : c ∈ s₁
    · rw [news_cons_mem u hc, news_cons_mem u ((h c).mp hc)]
      exact news_congr u s₁ s₂ h
    · rw [news_cons_not_mem u hc,
        news_cons_not_mem u (fun hx => hc ((h c).mpr hx))]
      refine congrArg _ (news_congr u (s₁ ++ [c]) (s₂ ++ [c]) ?_)
      intro x
      simp only [List.mem_append, List.mem_singleton]
      rw [h x]

theorem news_append (s u v : List String) :
    news s (u ++ v) = news s u ++ news (s ++ news s u) v := by
  induction u generalizing s with
  | nil => simp [news]
  | cons c u ih =>
    by_cases hc : c ∈ s
    · rw [List.cons_append, news_cons_mem _ hc, news_cons_mem u hc]
      exact ih s
    · rw [List.cons_append, news_cons_not_mem _ hc, news_cons_not_mem u hc]
      rw [ih (s ++ [c])]
      simp

theorem mem_news :
    ∀ (u s : List String) (x : String), x ∈ news s u ↔ x ∈ u ∧ x ∉ s
  | [], s, x => by simp [news]
  | c :: u, s, x => by
    by_cases hc : c ∈ s
    · rw [news_cons_mem u hc, mem_news u s x]
      simp only [List.mem_cons]
      constructor
      · rintro ⟨hx, hs⟩
        exact ⟨Or.inr hx, hs⟩
      · rintro ⟨hx | hx, hs⟩
        · exact absurd (hx ▸ hc) hs
        · exact ⟨hx, hs⟩
    · rw [news_cons_not_mem u hc]
      simp only [List.mem_cons, mem_news u (s ++ [c]) x,
        List.mem_append, List.mem_singleton]
      by_cases hxc : x = c
      · subst hxc
        tauto
      · tauto

theorem news_filter_seen :
    ∀ (u s s₀ : List String), (∀ x ∈ s₀, x ∈ s) →
      news s (u.filter (fun x => ¬ x ∈ s₀)) = news s u
  | [], _, _, _ => rfl
  | c :: u, s, s₀, h => by
    by_cases hc0 : c ∈ s₀
    · have hcs : c ∈ s := h c hc0
      have hstep : (c :: u).filter (fun x => ¬ x ∈ s₀) =
          u.filter (fun x => ¬ x ∈ s₀) := by
        simp [List.filter_cons, hc0]
      rw [hstep, news_cons_mem u hcs]
      exact news_filter_seen u s s₀ h
    · have hstep : (c :: u).filter (fun x => ¬ x ∈ s₀) =
          c :: u.filter (fun x => ¬ x ∈ s₀) := by
        simp [List.filter_cons, hc0]
      rw [hstep]
      by_cases hcs : c ∈ s
      · rw [news_cons_mem _ hcs, news_cons_mem u hcs]
        exact news_filter_seen u s s₀ h
      · rw [news_cons_not_mem _ hcs, news_cons_not_mem u hcs]
        refine congrArg _ (news_filter_seen u (s ++ [c]) s₀ ?_)
        exact fun x hx => List.mem_append_left _ (h x hx)

theorem news_nil_of_subset :
    ∀ (u s : List String), (∀ x ∈ u, x ∈ s) → news s u = []
  | [], _, _ => rfl
  | c :: u, s, h => by
    rw [news_cons_mem u (h c (List.mem_cons_self c u))]
    exact news_nil_of_subset u s (fun x hx => h x (List.mem_cons_of_mem _ hx))

theorem news_of_fresh_nodup :
    ∀ (u s : List String), u.Nodup → (∀ x ∈ u, x ∉ s) → news s u = u
  | [], _, _, _ => rfl
  | c :: u, s, hnd, h => by
    rw [news_cons_not_mem u (h c (List.mem_cons_self c u))]
    refine congrArg _ (news_of_fresh_nodup u (s ++ [c])
      (List.nodup_cons.mp hnd).2 ?_)
    intro x hx
    simp only [List.mem_append, List.mem_singleton]
    rintro (hs | hceq)
    · exact h x (List.mem_cons_of_mem _ hx) hs
    · exact (List.nodup_cons.mp hnd).1 (hceq ▸ hx)

theorem news_shift :
    ∀ (ud s T : List String) (u : List String), news s ud = u ++ T →
      news (s ++ u) ud = T := by
  intro ud
  induction ud with
  | nil =>
    intro s T u h
    cases u with
    | nil => simpa [news] using h.symm
    | cons c u' => simp [news] at h
  | cons d ud' ih =>
    intro s T u h
    by_cases hd : d ∈ s
    · rw [news_cons_mem ud' hd] at h
      rw [news_cons_mem ud' (List.mem_append_left _ hd)]
      exact ih s T u h
    · rw [news_cons_not_mem ud' hd] at h
      cases u with
      | nil =>
        rw [List.append_nil, news_cons_not_mem ud' hd]
        exact h
      | cons e u' =>
        simp only [List.cons_append, List.cons.injEq] at h
        obtain ⟨hde, hrest⟩ := h
        subst hde
        have hmem : d ∈ s ++ d :: u' := by simp
        rw [news_cons_mem ud' hmem]
        have hassoc : s ++ d :: u' = (s ++ [d]) ++ u' := by simp
        rw [hassoc]
        exact ih (s ++ [d]) T u' hrest

theorem news_absorb (s u D : List String)
    (h : ∃ T, news s u ++ T = news s D) : news s (u ++ D) = news s D := by
  obtain ⟨T, hT⟩ := h
  rw [news_append, news_shift D s T (news s u) hT.symm, hT]


/-! ### Stability of the descending insertion sort (for C3)

`list.sort(key=..., reverse=True)` is stable: the sorted list restricted to
any single key value equals the input so restricted.  Together with
sortedness this pins the sorted list down uniquely. -/

theorem filter_pyIns_class {α : Type} {σ : α → Int} :
    ∀ (l : List α) (x : α) (v : Int), SortedDesc σ l →
      (pyIns σ x l).filter (fun z => decide (σ z = v)) =
        if σ x = v then l.filter (fun z => decide (σ z = v)) ++ [x]
        else l.filter (fun z => decide (σ z = v))
  | [], x, v, _ => by
    by_cases hx : σ x = v
    · simp [pyIns, hx]
    · simp [pyIns, hx]
  | z :: m, x, v, h => by
    rcases List.pairwise_cons.mp h with ⟨hz, hm⟩
    simp only [pyIns]
    by_cases hle : σ x ≤ σ z
    · rw [if_pos hle]
      rw [List.filter_cons, List.filter_cons,
        filter_pyIns_class m x v hm]
      by_cases hzv : σ z = v
      · by_cases hxv : σ x = v
        · simp [hzv, hxv]
        · simp [hzv, hxv]
      · by_cases hxv : σ x = v
        · simp [hzv, hxv]
        · simp [hzv, hxv]
    · rw [if_neg hle]
      push_neg at hle
      by_cases hxv : σ x = v
      · have hnil : (z :: m).filter (fun z => decide (σ z = v)) = [] := by
          apply List.filter_eq_nil.mpr
          intro b hb
          simp only [decide_eq_true_eq]
          rcases List.mem_cons.mp hb with hbz | hbm
          · subst hbz
            omega
          · have := hz b hbm
            omega
        rw [List.filter_cons, hnil]
        simp [hxv]
      · rw [List.filter_cons]
        simp [hxv]

theorem foldl_pyIns_filter_class {α : Type} {σ : α → Int} (v : Int) :
    ∀ (l acc : List α), SortedDesc σ acc →
      (l.foldl (fun a x => pyIns σ x a) acc).filter
          (fun z => decide (σ z = v)) =
        acc.filter (fun z => decide (σ z = v)) ++
          l.filter (fun z => decide (σ z = v))
  | [], acc, _ => by simp
  | x :: l', acc, h => by
    rw [List.foldl_cons,
      foldl_pyIns_filter_class v l' (pyIns σ x acc) (pyIns_sorted x h),
      filter_pyIns_class acc x v h, List.filter_cons]
    by_cases hxv : σ x = v
    · simp [hxv]
    · simp [hxv]

theorem pySortDesc_filter_class {α : Type} (σ : α → Int) (v : Int)
    (l : List α) :
    (pySortDesc σ l).filter (fun z => decide (σ z = v)) =
      l.filter (fun z => decide (σ z = v)) := by
  unfold pySortDesc
  rw [foldl_pyIns_filter_class v l [] List.Pairwise.nil]
  rfl

theorem pySortDesc_filter_sub {α : Type} (σ : α → Int) (v : Int)
    (l : List α) (p : α → Bool) (hp : ∀ x, p x = true → σ x = v) :
    (pySortDesc σ l).filter p = l.filter p := by
  have key : ∀ u : List α,
      u.filter p = (u.filter (fun z => decide (σ z = v))).filter p := by
    intro u
    rw [List.filter_filter]
    apply List.filter_congr
    intro x _
    by_cases hx : p x = true
    · rw [hx, hp x hx]
      simp
    · simp only [Bool.not_eq_true] at hx
      rw [hx]
      simp
  rw [key (pySortDesc σ l), pySortDesc_filter_class, ← key l]

theorem sorted_eq_of_filter_eq {α : Type} {σ : α → Int} :
    ∀ {l₁ l₂ : List α}, SortedDesc σ l₁ → SortedDesc σ l₂ →
      (∀ v, l₁.filter (fun z => decide (σ z = v)) =
        l₂.filter (fun z => decide (σ z = v))) → l₁ = l₂
  | [], [], _, _, _ => rfl
  | [], y :: t₂, _, _, h => by
    have := h (σ y)
    simp at this
  | x :: t₁, [], _, _, h => by
    have := h (σ x)
    simp at this
  | x :: t₁, y :: t₂, h₁, h₂, h => by
    rcases List.pairwise_cons.mp h₁ with ⟨hx, ht₁⟩
    rcases List.pairwise_cons.mp h₂ with ⟨hy, ht₂⟩
    have hxy : σ x = σ y := by
      by_contra hne
      have hne1 : ¬ (σ y = σ x) := fun hc => hne hc.symm
      have h1 := h (σ x)
      have h2 := h (σ y)
      rw [List.filter_cons, List.filter_cons] at h1
      rw [List.filter_cons, List.filter_cons] at h2
      rw [if_pos (by simp)] at h1
      rw [if_neg (by simpa using hne1)] at h1
      rw [if_neg (by simpa using hne)] at h2
      rw [if_pos (by simp)] at h2
      have hxm : x ∈ t₂ := by
        have hx2 : x ∈ t₂.filter (fun z => decide (σ z = σ x)) := by
          rw [← h1]
          simp
        exact List.mem_of_mem_filter hx2
      have hym : y ∈ t₁ := by
        have hy1 : y ∈ t₁.filter (fun z => decide (σ z = σ y)) := by
          rw [h2]
          simp
        exact List.mem_of_mem_filter hy1
      have := hy x hxm
      have := hx y hym
      omega
    have hmain := h (σ x)
    rw [List.filter_cons, List.filter_cons] at hmain
    rw [if_pos (by simp)] at hmain
    rw [if_pos (by simpa using hxy.symm)] at hmain
    have hheads : x = y := (List.cons.injEq _ _ _ _ ▸ hmain).1
    have htl : t₁.filter (fun z => decide (σ z = σ x)) =
        t₂.filter (fun z => decide (σ z = σ x)) :=
      (List.cons.injEq _ _ _ _ ▸ hmain).2
    have htails : t₁ = t₂ := by
      refine sorted_eq_of_filter_eq ht₁ ht₂ ?_
      intro v
      by_cases hv : σ x = v
      · calc t₁.filter (fun z => decide (σ z = v))
            = t₁.filter (fun z => decide (σ z = σ x)) := by rw [hv]
          _ = t₂.filter (fun z => decide (σ z = σ x)) := htl
          _ = t₂.filter (fun z => decide (σ z = v)) := by rw [hv]
      · have hv2 : ¬ (σ y = v) := fun hc => hv (hxy.symm ▸ hc ▸ rfl)
        have hv' := h v
        rw [List.filter_cons, List.filter_cons] at hv'
        rw [if_neg (by simpa using hv)] at hv'
        rw [if_neg (by simpa using hv2)] at hv'
        exact hv'
    rw [hheads, htails]

theorem sorted_three_split {α : Type} {σ : α → Int} (v : Int) :
    ∀ {l : List α}, SortedDesc σ l →
      l = l.filter (fun z => decide (v < σ z)) ++
        l.filter (fun z => decide (σ z = v)) ++
        l.filter (fun z => decide (σ z < v))
  | [], _ => rfl
  | x :: t, h => by
    rcases List.pairwise_cons.mp h with ⟨hx, ht⟩
    have ih := sorted_three_split v ht
    rcases lt_trichotomy v (σ x) with hlt | heq | hgt
    · rw [List.filter_cons, List.filter_cons, List.filter_cons]
      rw [if_pos (by simpa using hlt)]
      rw [if_neg (by simp; omega)]
      rw [if_neg (by simp; omega)]
      simpa using ih
    · have hEt : t.filter (fun z => decide (v < σ z)) = [] := by
        apply List.filter_eq_nil.mpr
        intro b hb
        have := hx b hb
        simp
        omega
      rw [List.filter_cons, List.filter_cons, List.filter_cons]
      rw [if_neg (by simp; omega)]
      rw [if_pos (by simpa using heq.symm)]
      rw [if_neg (by simp; omega)]
      rw [hEt]
      simp only [List.nil_append, List.cons_append]
      have ih' := ih
      rw [hEt] at ih'
      simp only [List.nil_append] at ih'
      exact congrArg (x :: ·) ih'
    · have hEt : t.filter (fun z => decide (v < σ z)) = [] := by
        apply List.filter_eq_nil.mpr
        intro b hb
        have := hx b hb
        simp
        omega
      have hCt : t.filter (fun z => decide (σ z = v)) = [] := by
        apply List.filter_eq_nil.mpr
        intro b hb
        have := hx b hb
        simp
        omega
      rw [List.filter_cons, List.filter_cons, List.filter_cons]
      rw [if_neg (by simp; omega)]
      rw [if_neg (by simp; omega)]
      rw [if_pos (by simpa using hgt)]
      rw [hEt, hCt]
      have ih' := ih
      rw [hEt, hCt] at ih'
      simp only [List.nil_append] at ih' ⊢
      exact congrArg (x :: ·) ih'

theorem sorted_map_eq_of_perm {α : Type} {σ : α → Int} {l₁ l₂ : List α}
    (hp : l₁.Perm l₂) (h₁ : SortedDesc σ l₁) (h₂ : SortedDesc σ l₂) :
    l₁.map σ = l₂.map σ := by
  haveI : IsAntisymm Int (fun a b => b ≤ a) :=
    ⟨fun a b hab hba => le_antisymm hba hab⟩
  have hs₁ : (l₁.map σ).Sorted (fun a b : Int => b ≤ a) :=
    List.pairwise_map.mpr h₁
  have hs₂ : (l₂.map σ).Sorted (fun a b : Int => b ≤ a) :=
    List.pairwise_map.mpr h₂
  exact List.eq_of_perm_of_sorted (hp.map σ) hs₁ hs₂

theorem le_foldr_max : ∀ (u : List Int) (z x : Int), x ∈ u →
    x ≤ u.foldr max z
  | [], _, _, hx => by cases hx
  | y :: u', z, x, hx => by
    rcases List.mem_cons.mp hx with hxy | hxm
    · subst hxy
      exact le_max_left _ _
    · exact le_trans (le_foldr_max u' z x hxm) (le_max_right _ _)

theorem filter_take_eq_take_filter {α : Type} (p : α → Bool)
    (l : List α) (n : Nat) :
    ∃ m, (l.take n).filter p = (l.filter p).take m := by
  refine ⟨((l.take n).filter p).length, ?_⟩
  have h1 : l.filter p = (l.take n).filter p ++ (l.drop n).filter p := by
    conv_lhs => rw [← List.take_append_drop n l]
    rw [List.filter_append]
  rw [h1, List.take_left]

theorem filter_and_const {α : Type} (q : α → Bool) (c : Bool)
    (l : List α) :
    l.filter (fun x => q x && c) = if c then l.filter q else [] := by
  cases c with
  | true => simp
  | false => simp

theorem sortedDesc_filter {α : Type} {σ : α → Int} {l : List α}
    (h : SortedDesc σ l) (p : α → Bool) : SortedDesc σ (l.filter p) :=
  List.Pairwise.sublist (List.filter_sublist l) h


/-! ### Stabilization of `DictionaryManager.get_candidates` (for C3)

The in-place sort of `word_dict[pinyin_str]` reaches a fixed point after one
call: the stored list is already sorted, so a second call sorts it to itself
and returns the identical pair. -/

def pfxMatches (dm' : DictionaryManager) (s : String)
    (cands : List String) : List (String × Int) :=
  dm'.word_dict.foldl
    (fun acc kv =>
      if pyStartsWith kv.1 s then
        acc ++ (kv.2.filter (fun h => ¬ h ∈ cands)).map
          (fun h => (h, dm'.get_word_frequency h kv.1))
      else acc) []

theorem dm_gc_some (dm : DictionaryManager) (s : String) (L : List String)
    (hlk : dm.lookup s = some L) :
    dm.get_candidates s (-1) =
      (pySortDesc (fun h => dm.get_word_frequency h s) L ++
        (pySortDesc (fun hv => hv.2)
          (pfxMatches
            (dm.setWords s (pySortDesc (fun h => dm.get_word_frequency h s) L))
            s (pySortDesc (fun h => dm.get_word_frequency h s) L))).map
          (fun hv => hv.1),
       dm.setWords s (pySortDesc (fun h => dm.get_word_frequency h s) L)) := by
  simp only [DictionaryManager.get_candidates, hlk, pfxMatches]
  norm_num

theorem dm_gc_none (dm : DictionaryManager) (s : String) (c : Int)
    (hlk : dm.lookup s = none) : (dm.get_candidates s c).2 = dm := by
  simp [DictionaryManager.get_candidates, hlk]

theorem get_word_frequency_setWords (dm : DictionaryManager) (p : String)
    (l : List String) (h k : String) :
    (dm.setWords p l).get_word_frequency h k =
      dm.get_word_frequency h k := rfl

theorem find?_setWords :
    ∀ (wd : List (String × List String)) (p : String) (l : List String),
      (wd.find? (fun kv => kv.1 == p)).isSome = true →
      (wd.map (fun kv => if kv.1 == p then (kv.1, l) else kv)).find?
        (fun kv => kv.1 == p) = some (p, l)
  | [], p, l, h => by simp [List.find?] at h
  | kv :: t, p, l, h => by
    by_cases hb : (kv.1 == p) = true
    · have hp : kv.1 = p := by simpa using hb
      rw [List.map_cons, if_pos hb]
      simp [List.find?, hb, hp]
    · have hb' : (kv.1 == p) = false := by simpa using hb
      rw [List.map_cons, if_neg hb]
      simp only [List.find?, hb'] at h ⊢
      exact find?_setWords t p l h

theorem lookup_setWords_self (dm : DictionaryManager) (p : String)
    (w l : List String) (hw : dm.lookup p = some w) :
    (dm.setWords p l).lookup p = some l := by
  have hsome : (dm.word_dict.find? (fun kv => kv.1 == p)).isSome = true := by
    unfold DictionaryManager.lookup dictFind? at hw
    cases hf : dm.word_dict.find? (fun kv => kv.1 == p) with
    | none => rw [hf] at hw; simp at hw
    | some kv => simp
  show (dictFind?
    (dm.word_dict.map (fun kv => if kv.1 == p then (kv.1, l) else kv)) p) =
      some l
  unfold dictFind?
  rw [find?_setWords dm.word_dict p l hsome]
  rfl

theorem find?_setWords_ne :
    ∀ (wd : List (String × List String)) (p : String) (l : List String)
      (k : String), k ≠ p →
      (wd.map (fun kv => if kv.1 == p then (kv.1, l) else kv)).find?
        (fun kv => kv.1 == k) = wd.find? (fun kv => kv.1 == k)
  | [], _, _, _, _ => rfl
  | kv :: t, p, l, k, hk => by
    by_cases hbk : (kv.1 == k) = true
    · have hkk : kv.1 = k := by simpa using hbk
      have hkp : (kv.1 == p) = false := by
        rw [hkk]
        exact beq_eq_false_iff_ne.mpr hk
      rw [List.map_cons, if_neg (by simp [hkp])]
      simp [List.find?, hbk]
    · have hbk' : (kv.1 == k) = false := by simpa using hbk
      have hfst2 :
          ((if (kv.1 == p) = true then (kv.1, l) else kv).1 == k) = false := by
        by_cases hb : (kv.1 == p) = true
        · rw [if_pos hb]
          exact hbk'
        · rw [if_neg hb]
          exact hbk'
      rw [List.map_cons]
      simp only [List.find?, hfst2, hbk']
      exact find?_setWords_ne t p l k hk

theorem lookup_setWords_ne (dm : DictionaryManager) (p : String)
    (l : List String) (k : String) (hk : k ≠ p) :
    (dm.setWords p l).lookup k = dm.lookup k := by
  show (dictFind?
    (dm.word_dict.map (fun kv => if kv.1 == p then (kv.1, l) else kv)) k) = _
  unfold dictFind? DictionaryManager.lookup
  rw [find?_setWords_ne dm.word_dict p l k hk]
  rfl

theorem setWords_setWords (dm : DictionaryManager) (p : String)
    (a b : List String) :
    (dm.setWords p a).setWords p b = dm.setWords p b := by
  simp only [DictionaryManager.setWords, List.map_map]
  congr 1
  apply List.map_congr_left
  intro kv _
  by_cases hb : (kv.1 == p) = true
  · simp [Function.comp, hb]
  · simp [Function.comp, hb]

theorem dm_get_candidates_idem (dm : DictionaryManager) (s : String) :
    ((dm.get_candidates s (-1)).2).get_candidates s (-1) =
      dm.get_candidates s (-1) := by
  cases hlk : dm.lookup s with
  | none =>
    rw [dm_gc_none dm s (-1) hlk]
  | some L =>
    have heq := dm_gc_some dm s L hlk
    have hfr : (fun h => ((dm.setWords s
        (pySortDesc (fun h => dm.get_word_frequency h s) L)).get_word_frequency
          h s)) = (fun h => dm.get_word_frequency h s) := rfl
    have hlk₂ : (dm.setWords s
        (pySortDesc (fun h => dm.get_word_frequency h s) L)).lookup s =
        some (pySortDesc (fun h => dm.get_word_frequency h s) L) :=
      lookup_setWords_self dm s L _ hlk
    have heq₂ := dm_gc_some _ s _ hlk₂
    rw [heq, heq₂]
    rw [hfr, pySortDesc_idem, setWords_setWords]


/-! ### Segment congruence under the step-3 mutation (for C3)

The in-place sort touches only the word list stored at the exact key; every
lattice lookup except the full-string one uses a strictly shorter key, so
all cells below the last are unchanged. -/

theorem get_word_score_congr (dm₁ dm₂ : DictionaryManager)
    (hfr : ∀ h k, dm₂.get_word_frequency h k = dm₁.get_word_frequency h k)
    (w p : String) :
    PinyinEngine.get_word_score dm₂ w p =
      PinyinEngine.get_word_score dm₁ w p := by
  unfold PinyinEngine.get_word_score
  rw [hfr]

theorem subStr_ne_full (cs : List Char) (j i : Nat) (hji : j < i)
    (hi : i ≤ cs.length) (h0 : ¬(j = 0 ∧ i = cs.length)) :
    subStr cs j i ≠ String.mk cs := by
  intro hc
  unfold subStr at hc
  injection hc with hdata
  have hlen : ((cs.drop j).take (i - j)).length = cs.length := by
    rw [hdata]
  rw [List.length_take, List.length_drop] at hlen
  omega

theorem subStr_full (cs : List Char) : subStr cs 0 cs.length = String.mk cs := by
  unfold subStr
  simp

theorem cellCands_dm_congr (dm₁ dm₂ : DictionaryManager) (cs : List Char)
    (dp : List (List (String × Int))) (i : Nat)
    (hfr : ∀ h k, dm₂.get_word_frequency h k = dm₁.get_word_frequency h k)
    (hlk : ∀ k, k ≠ String.mk cs → dm₂.lookup k = dm₁.lookup k)
    (hi : i < cs.length) :
    cellCands dm₂ cs dp i = cellCands dm₁ cs dp i := by
  have hsc : ∀ w p, PinyinEngine.get_word_score dm₂ w p =
      PinyinEngine.get_word_score dm₁ w p := get_word_score_congr dm₁ dm₂ hfr
  unfold cellCands
  rw [List.flatMap_def, List.flatMap_def]
  apply congrArg List.flatten
  apply List.map_congr_left
  intro j hj
  have hjlt : j < i := List.mem_range.mp hj
  have hne : subStr cs j i ≠ String.mk cs :=
    subStr_ne_full cs j i hjlt (by omega) (by omega)
  rw [hlk _ hne]
  simp only [hsc]

theorem segmentDPAux_dm_congr (dm₁ dm₂ : DictionaryManager) (cs : List Char)
    (hfr : ∀ h k, dm₂.get_word_frequency h k = dm₁.get_word_frequency h k)
    (hlk : ∀ k, k ≠ String.mk cs → dm₂.lookup k = dm₁.lookup k) :
    ∀ m, m < cs.length → segmentDPAux dm₂ cs m = segmentDPAux dm₁ cs m
  | 0, _ => rfl
  | m + 1, h => by
    have ih := segmentDPAux_dm_congr dm₁ dm₂ cs hfr hlk m (by omega)
    show segmentDPAux dm₂ cs m ++
        [buildCell dm₂ cs (segmentDPAux dm₂ cs m) (m + 1)] =
      segmentDPAux dm₁ cs m ++
        [buildCell dm₁ cs (segmentDPAux dm₁ cs m) (m + 1)]
    rw [ih]
    unfold buildCell
    rw [cellCands_dm_congr dm₁ dm₂ cs _ (m + 1) hfr hlk h]


/-- The part of the last lattice cell's generated sequence contributed by
split points `j ≥ 1` (whose keys are proper, hence short, substrings). -/
def cellTail (dm : DictionaryManager) (cs : List Char) :
    List (String × Int) :=
  ((List.range (cs.length - 1)).map Nat.succ).flatMap (fun j =>
    let dpj := (segmentDPAux dm cs (cs.length - 1)).getD j []
    if dpj = [] then []
    else
      match dm.lookup (subStr cs j cs.length) with
      | some words =>
        if words = [] then []
        else
          words.flatMap (fun word =>
            dpj.map (fun pr =>
              (pr.1 ++ word,
               pr.2 + PinyinEngine.get_word_score dm word
                 (subStr cs j cs.length))))
      | none => [])

theorem flatMap_singleton_map {α β : Type} (l : List α) (g : α → β) :
    l.flatMap (fun x => [g x]) = l.map g := by
  induction l with
  | nil => rfl
  | cons x t ih => simp [ih]

theorem cellCands_full_decomp (dm : DictionaryManager) (cs : List Char)
    (hcs : cs ≠ []) (L : List String)
    (hlk : dm.lookup (String.mk cs) = some L) :
    cellCands dm cs (segmentDPAux dm cs (cs.length - 1)) cs.length =
      L.map (fun w =>
        (w, PinyinEngine.get_word_score dm w (String.mk cs))) ++
        cellTail dm cs := by
  have hn : List.range cs.length =
      0 :: (List.range (cs.length - 1)).map Nat.succ := by
    conv_lhs => rw [show cs.length = (cs.length - 1) + 1 by
      have := List.length_pos.mpr hcs; omega]
    exact List.range_succ_eq_map _
  have hdp0 : (segmentDPAux dm cs (cs.length - 1)).getD 0 [] = [("", 0)] := by
    rw [segmentDPAux_getD_le dm cs (Nat.zero_le _) 0 (by omega)]
    rfl
  unfold cellCands
  rw [hn, List.flatMap_cons]
  congr 1
  simp only [hdp0, subStr_full, hlk]
  rw [if_neg (by simp)]
  by_cases hL : L = []
  · subst hL
    simp
  · rw [if_neg hL]
    have hbody : ∀ word : String,
        ([(("" : String), (0 : Int))].map (fun pr =>
          (pr.1 ++ word,
           pr.2 + PinyinEngine.get_word_score dm word (String.mk cs)))) =
        [(word, PinyinEngine.get_word_score dm word (String.mk cs))] := by
      intro word
      simp [show ("" : String) ++ word = word from rfl]
    simp only [hbody]
    exact flatMap_singleton_map L _

theorem segment_take_form (e : PinyinEngine) (s : String) (hs : s ≠ "")
    (L : List String) (hlk : e.dict_manager.lookup s = some L) :
    e.segment s =
      ((pySortDesc (fun x : String × Int => x.2)
        (L.map (fun w =>
          (w, PinyinEngine.get_word_score e.dict_manager w s)) ++
          cellTail e.dict_manager s.data)).take 30).map
        (fun x : String × Int => x.1) := by
  have hcs : s.data ≠ [] := by
    intro h
    apply hs
    cases s
    simp_all
  have hn1 : 1 ≤ s.data.length := by
    have := List.length_pos.mpr hcs
    omega
  have hmk : String.mk s.data = s := rfl
  have hgen : cellCands e.dict_manager s.data
      (segmentDPAux e.dict_manager s.data (s.data.length - 1))
      s.data.length =
      L.map (fun w =>
        (w, PinyinEngine.get_word_score e.dict_manager w s)) ++
        cellTail e.dict_manager s.data := by
    have h := cellCands_full_decomp e.dict_manager s.data hcs L
      (by rw [hmk]; exact hlk)
    rw [hmk] at h
    exact h
  have hlast : (segmentDP e.dict_manager s.data).getD s.data.length [] =
      (cellCands e.dict_manager s.data
        (segmentDPAux e.dict_manager s.data (s.data.length - 1))
        s.data.length).foldl capInsert [] := by
    rw [segmentDP_eq_aux]
    rw [segmentDPAux_cell e.dict_manager s.data s.data.length s.data.length
      hn1 (le_refl _)]
    congr 1
    apply cellCands_congr
    intro j hj
    exact segmentDPAux_getD_le e.dict_manager s.data (by omega) j (by omega)
  have hcap : (segmentDP e.dict_manager s.data).getD s.data.length [] =
      if (cellCands e.dict_manager s.data
          (segmentDPAux e.dict_manager s.data (s.data.length - 1))
          s.data.length).length ≤ 30 then
        cellCands e.dict_manager s.data
          (segmentDPAux e.dict_manager s.data (s.data.length - 1))
          s.data.length
      else (pySortDesc (fun x => x.2)
        (cellCands e.dict_manager s.data
          (segmentDPAux e.dict_manager s.data (s.data.length - 1))
          s.data.length)).take 30 := by
    rw [hlast]
    exact foldl_capInsert_eq _
  rw [← hgen]
  unfold PinyinEngine.segment
  rw [if_neg hs]
  simp only [hcap]
  by_cases hlen : (cellCands e.dict_manager s.data
      (segmentDPAux e.dict_manager s.data (s.data.length - 1))
      s.data.length).length ≤ 30
  · rw [if_pos hlen]
    by_cases hnil : cellCands e.dict_manager s.data
        (segmentDPAux e.dict_manager s.data (s.data.length - 1))
        s.data.length = []
    · rw [if_pos hnil, hnil]
      rfl
    · rw [if_neg hnil]
      rw [List.take_of_length_le (by rw [length_pySortDesc]; exact hlen)]
  · rw [if_neg hlen]
    have hne : (pySortDesc (fun x : String × Int => x.2)
        (cellCands e.dict_manager s.data
          (segmentDPAux e.dict_manager s.data (s.data.length - 1))
          s.data.length)).take 30 ≠ [] := by
      intro hc
      have hl0 := congrArg List.length hc
      rw [List.length_take, length_pySortDesc] at hl0
      simp only [List.length_nil] at hl0
      omega
    rw [if_neg hne]
    rw [pySortDesc_of_sorted (SortedDesc.take (pySortDesc_sorted _ _) 30)]

theorem cellTail_dm_congr (dm₁ dm₂ : DictionaryManager) (cs : List Char)
    (hfr : ∀ h k, dm₂.get_word_frequency h k = dm₁.get_word_frequency h k)
    (hlk : ∀ k, k ≠ String.mk cs → dm₂.lookup k = dm₁.lookup k)
    (hcs : cs ≠ []) :
    cellTail dm₂ cs = cellTail dm₁ cs := by
  have hsc : ∀ w p, PinyinEngine.get_word_score dm₂ w p =
      PinyinEngine.get_word_score dm₁ w p := get_word_score_congr dm₁ dm₂ hfr
  have haux : segmentDPAux dm₂ cs (cs.length - 1) =
      segmentDPAux dm₁ cs (cs.length - 1) :=
    segmentDPAux_dm_congr dm₁ dm₂ cs hfr hlk (cs.length - 1)
      (by have := List.length_pos.mpr hcs; omega)
  unfold cellTail
  rw [haux]
  rw [List.flatMap_def, List.flatMap_def]
  apply congrArg List.flatten
  apply List.map_congr_left
  intro j hj
  obtain ⟨j', hj', hjeq⟩ := List.mem_map.mp hj
  have hj'lt : j' < cs.length - 1 := List.mem_range.mp hj'
  have hlenpos := List.length_pos.mpr hcs
  have hne : subStr cs j cs.length ≠ String.mk cs := by
    apply subStr_ne_full
    · omega
    · exact le_refl _
    · intro hc
      omega
  rw [hlk _ hne]
  simp only [hsc]


/-! ### Helpers for the last-cell tie analysis (for C3) -/

theorem map_fst_map_pair (scoreF : String → Int) (l : List String) :
    ((l.map (fun w => (w, scoreF w))).map (fun x : String × Int => x.1)) =
      l := by
  induction l with
  | nil => rfl
  | cons x t ih => simp [ih]

theorem filter_sndeq_map_pair (scoreF : String → Int) (v : Int)
    (l : List String) :
    ((l.map (fun w => (w, scoreF w))).filter
      (fun x : String × Int => decide (x.2 = v))) =
      (l.filter (fun w => decide (scoreF w = v))).map
        (fun w => (w, scoreF w)) := by
  induction l with
  | nil => rfl
  | cons x t ih =>
    by_cases hx : scoreF x = v
    · simp [hx, ih]
    · simp [hx, ih]

theorem filter_noncur_map_fst (CL : List String) (l : List (String × Int)) :
    ((l.map (fun x : String × Int => x.1)).filter
      (fun w => decide (¬ w ∈ CL))) =
      (l.filter (fun x : String × Int => decide (¬ x.1 ∈ CL))).map
        (fun x : String × Int => x.1) := by
  induction l with
  | nil => rfl
  | cons x t ih =>
    by_cases hx : x.1 ∈ CL
    · simp only [decide_not] at ih ⊢
      simp [hx, ih]
    · simp only [decide_not] at ih ⊢
      simp [hx, ih]

theorem filter_le_split {α : Type} (σ : α → Int) (v : Int) :
    ∀ G : List α,
      (G.filter (fun z => decide (v ≤ σ z))).length =
        (G.filter (fun z => decide (v < σ z))).length +
          (G.filter (fun z => decide (σ z = v))).length
  | [] => rfl
  | x :: t => by
    have ih := filter_le_split σ v t
    rcases lt_trichotomy v (σ x) with hlt | heq | hgt
    · rw [List.filter_cons, List.filter_cons, List.filter_cons]
      rw [if_pos (by simp; omega), if_pos (by simpa using hlt),
        if_neg (by simp; omega)]
      simp only [List.length_cons]
      omega
    · rw [List.filter_cons, List.filter_cons, List.filter_cons]
      rw [if_pos (by simp; omega), if_neg (by simp; omega),
        if_pos (by simp; omega)]
      simp only [List.length_cons]
      omega
    · rw [List.filter_cons, List.filter_cons, List.filter_cons]
      rw [if_neg (by simp; omega), if_neg (by simp; omega),
        if_neg (by simp; omega)]
      exact ih

theorem sorted_count_boundary {α : Type} {σ : α → Int} :
    ∀ (G : List α) (k : Nat) (hk : k < G.length), SortedDesc σ G →
      (G.filter (fun z => decide (σ (G.get ⟨k, hk⟩) < σ z))).length ≤ k ∧
      k < (G.filter (fun z => decide (σ (G.get ⟨k, hk⟩) ≤ σ z))).length
  | [], k, hk, _ => by simp at hk
  | x :: t, 0, hk, h => by
    rcases List.pairwise_cons.mp h with ⟨hx, ht⟩
    constructor
    · have hnil : (x :: t).filter
          (fun z => decide (σ ((x :: t).get ⟨0, hk⟩) < σ z)) = [] := by
        apply List.filter_eq_nil.mpr
        intro b hb
        simp only [List.get] at *
        rcases List.mem_cons.mp hb with hbx | hbm
        · subst hbx
          simp
        · have := hx b hbm
          simp
          omega
      rw [hnil]
      simp
    · rw [List.filter_cons]
      rw [if_pos (by simp)]
      simp
  | x :: t, k + 1, hk, h => by
    rcases List.pairwise_cons.mp h with ⟨hx, ht⟩
    have hk' : k < t.length := by
      simp only [List.length_cons] at hk
      omega
    have hget : (x :: t).get ⟨k + 1, hk⟩ = t.get ⟨k, hk'⟩ := rfl
    obtain ⟨ih1, ih2⟩ := sorted_count_boundary t k hk' ht
    rw [hget]
    constructor
    · rw [List.filter_cons]
      by_cases hxc : decide (σ (t.get ⟨k, hk'⟩) < σ x) = true
      · rw [if_pos hxc]
        simp only [List.length_cons]
        omega
      · rw [if_neg hxc]
        omega
    · rw [List.filter_cons]
      have hle : σ (t.get ⟨k, hk'⟩) ≤ σ x := hx _ (List.get_mem t k hk')
      rw [if_pos (by simpa using hle)]
      simp only [List.length_cons]
      omega


theorem filter_mask_class_map_pair (scoreF : String → Int) (CL : List String)
    (u : Int) (l : List String) :
    ((l.map (fun w => (w, scoreF w))).filter
      (fun x : String × Int => decide (¬ x.1 ∈ CL) && decide (x.2 = u))) =
    (l.filter (fun w => decide (¬ w ∈ CL) && decide (scoreF w = u))).map
      (fun w => (w, scoreF w)) := by
  induction l with
  | nil => rfl
  | cons x t ih =>
    simp only [decide_not] at ih ⊢
    by_cases h1 : x ∈ CL
    · simp [h1, ih]
    · by_cases h2 : scoreF x = u
      · simp [h1, h2, ih]
      · simp [h1, h2, ih]

theorem masked_class_eq (L : List String) (R : List (String × Int))
    (CL : List String) (freqF scoreF : String → Int)
    (hsc : ∀ w, ¬ w ∈ CL → scoreF w = freqF w) (u : Int) :
    (pySortDesc (fun x : String × Int => x.2)
      (L.map (fun w => (w, scoreF w)) ++ R)).filter
      (fun x : String × Int => decide (¬ x.1 ∈ CL) && decide (x.2 = u)) =
    (pySortDesc (fun x : String × Int => x.2)
      ((pySortDesc freqF L).map (fun w => (w, scoreF w)) ++ R)).filter
      (fun x : String × Int => decide (¬ x.1 ∈ CL) && decide (x.2 = u)) := by
  have hp : ∀ x : String × Int,
      (decide (¬ x.1 ∈ CL) && decide (x.2 = u)) = true →
        (fun x : String × Int => x.2) x = u := by
    intro x hx
    have h2 := (Bool.and_eq_true _ _).mp hx |>.2
    simpa using h2
  rw [pySortDesc_filter_sub (fun x : String × Int => x.2) u _ _ hp]
  rw [pySortDesc_filter_sub (fun x : String × Int => x.2) u _ _ hp]
  rw [List.filter_append, List.filter_append]
  congr 1
  rw [filter_mask_class_map_pair, filter_mask_class_map_pair]
  congr 1
  have hq : ∀ w, (decide (¬ w ∈ CL) && decide (scoreF w = u)) = true →
      freqF w = u := by
    intro w hw
    rcases (Bool.and_eq_true _ _).mp hw with ⟨hw1, hw2⟩
    have h1 : ¬ w ∈ CL := of_decide_eq_true hw1
    have h2 : scoreF w = u := of_decide_eq_true hw2
    rw [← hsc w h1]
    exact h2
  rw [pySortDesc_filter_sub freqF u L _ hq]


/-- Comparison of the two take-30 lists of the last lattice cell across the
step-3 re-sort.  Masked by the curated list, the two survivor sequences are
equal up to a boundary slice of tied non-curated exact words, and every word
either re-appears on the other side or is an exact word of the key. -/
theorem seg_take_masked_decomp
    (L : List String) (R : List (String × Int)) (CL : List String)
    (freqF scoreF : String → Int)
    (hsc : ∀ w, ¬ w ∈ CL → scoreF w = freqF w)
    (G₁ G₂ : List (String × Int)) (S₁ S₂ T₁ T₂ : List String)
    (hG₁ : G₁ = pySortDesc (fun x : String × Int => x.2)
      (L.map (fun w => (w, scoreF w)) ++ R))
    (hG₂ : G₂ = pySortDesc (fun x : String × Int => x.2)
      ((pySortDesc freqF L).map (fun w => (w, scoreF w)) ++ R))
    (hS₁ : S₁ = (G₁.take 30).map (fun x : String × Int => x.1))
    (hS₂ : S₂ = (G₂.take 30).map (fun x : String × Int => x.1))
    (hT₁ : T₁ = S₁.filter (fun w => decide (¬ w ∈ CL)))
    (hT₂ : T₂ = S₂.filter (fun w => decide (¬ w ∈ CL))) :
    (∀ w ∈ S₁, w ∈ S₂ ∨ w ∈ L) ∧ (∀ w ∈ S₂, w ∈ S₁ ∨ w ∈ L) ∧
    ∃ (W' : List String) (v : Int) (a b : Nat),
      T₁ = W' ++
        (L.filter (fun w => decide (¬ w ∈ CL ∧ freqF w = v))).take a ∧
      T₂ = W' ++
        (L.filter (fun w => decide (¬ w ∈ CL ∧ freqF w = v))).take b ∧
      (∀ w ∈ L, ¬ w ∈ CL → v < freqF w → w ∈ W') := by
  have hperm0 : (((pySortDesc freqF L).map (fun w => (w, scoreF w))) ++
      R).Perm ((L.map (fun w => (w, scoreF w))) ++ R) :=
    ((pySortDesc_perm freqF L).map _).append_right R
  have hG : G₂.Perm G₁ := by
    rw [hG₁, hG₂]
    exact (pySortDesc_perm _ _).trans
      (hperm0.trans (pySortDesc_perm _ _).symm)
  have hs₁ : SortedDesc (fun x : String × Int => x.2) G₁ := by
    rw [hG₁]; exact pySortDesc_sorted _ _
  have hs₂ : SortedDesc (fun x : String × Int => x.2) G₂ := by
    rw [hG₂]; exact pySortDesc_sorted _ _
  have hcore : ∀ u : Int,
      G₁.filter (fun x : String × Int =>
        decide (¬ x.1 ∈ CL) && decide (x.2 = u)) =
      G₂.filter (fun x : String × Int =>
        decide (¬ x.1 ∈ CL) && decide (x.2 = u)) := by
    intro u
    rw [hG₁, hG₂]
    exact masked_class_eq L R CL freqF scoreF hsc u
  by_cases hlen : G₁.length ≤ 30
  · have hlen₂ : G₂.length ≤ 30 := by rw [hG.length_eq]; exact hlen
    have htk₁ : G₁.take 30 = G₁ := List.take_of_length_le hlen
    have htk₂ : G₂.take 30 = G₂ := List.take_of_length_le hlen₂
    have hS₁' : S₁ = G₁.map (fun x : String × Int => x.1) := by
      rw [hS₁, htk₁]
    have hS₂' : S₂ = G₂.map (fun x : String × Int => x.1) := by
      rw [hS₂, htk₂]
    have hM : G₁.filter (fun x : String × Int => decide (¬ x.1 ∈ CL)) =
        G₂.filter (fun x : String × Int => decide (¬ x.1 ∈ CL)) := by
      apply sorted_eq_of_filter_eq (sortedDesc_filter hs₁ _)
        (sortedDesc_filter hs₂ _)
      intro u
      rw [List.filter_filter, List.filter_filter]
      have hsw : ∀ l : List (String × Int),
          l.filter (fun a => decide (a.2 = u) && decide (¬ a.1 ∈ CL)) =
          l.filter (fun a => decide (¬ a.1 ∈ CL) && decide (a.2 = u)) := by
        intro l
        apply List.filter_congr
        intro x _
        exact Bool.and_comm _ _
      rw [hsw, hsw, hcore u]
    have hTeq : T₁ = T₂ := by
      rw [hT₁, hT₂, hS₁', hS₂', filter_noncur_map_fst,
        filter_noncur_map_fst, hM]
    refine ⟨?_, ?_, T₁, (L.map freqF).foldr max 0, 0, 0, by simp,
      by simp [hTeq], ?_⟩
    · intro w hw
      rw [hS₁'] at hw
      left
      rw [hS₂']
      exact (hG.map (fun x : String × Int => x.1)).mem_iff.mpr hw
    · intro w hw
      rw [hS₂'] at hw
      left
      rw [hS₁']
      exact (hG.map (fun x : String × Int => x.1)).mem_iff.mp hw
    · intro w hwL _ hwv
      exfalso
      have := le_foldr_max (L.map freqF) 0 (freqF w)
        (List.mem_map_of_mem freqF hwL)
      omega
  · push_neg at hlen
    have h29 : 29 < G₁.length := by omega
    obtain ⟨hBle, hBCge⟩ := sorted_count_boundary G₁ 29 h29 hs₁
    set v := (G₁.get ⟨29, h29⟩).2 with hvdef
    have hsplit₁ := sorted_three_split v hs₁
    have hsplit₂ := sorted_three_split v hs₂
    set B₁ := G₁.filter (fun z : String × Int => decide (v < z.2)) with hB₁
    set C₁ := G₁.filter (fun z : String × Int => decide (z.2 = v)) with hC₁
    set E₁ := G₁.filter (fun z : String × Int => decide (z.2 < v)) with hE₁
    set B₂ := G₂.filter (fun z : String × Int => decide (v < z.2)) with hB₂
    set C₂ := G₂.filter (fun z : String × Int => decide (z.2 = v)) with hC₂
    set E₂ := G₂.filter (fun z : String × Int => decide (z.2 < v)) with hE₂
    have hlenB : B₂.length = B₁.length := by
      rw [hB₁, hB₂]
      exact (hG.filter _).length_eq
    have hlenC : C₂.length = C₁.length := by
      rw [hC₁, hC₂]
      exact (hG.filter _).length_eq
    have hBC : 30 ≤ B₁.length + C₁.length := by
      have hsum := filter_le_split (fun x : String × Int => x.2) v G₁
      rw [← hB₁, ← hC₁] at hsum
      omega
    set r := 30 - B₁.length with hrdef
    have htke₁ : G₁.take 30 = B₁ ++ C₁.take r := by
      conv_lhs => rw [hsplit₁]
      rw [List.take_append_eq_append_take, List.take_append_eq_append_take]
      rw [List.take_of_length_le (show B₁.length ≤ 30 by omega)]
      have hE0 : 30 - (B₁ ++ C₁).length = 0 := by
        rw [List.length_append]
        omega
      rw [hE0, List.take_zero, List.append_nil]
    have htke₂ : G₂.take 30 = B₂ ++ C₂.take r := by
      conv_lhs => rw [hsplit₂]
      rw [List.take_append_eq_append_take, List.take_append_eq_append_take]
      rw [List.take_of_length_le (show B₂.length ≤ 30 by omega)]
      have hE0 : 30 - (B₂ ++ C₂).length = 0 := by
        rw [List.length_append]
        omega
      rw [hE0, List.take_zero, List.append_nil]
      have hrr : 30 - B₂.length = r := by omega
      rw [hrr]
    have hCd₁ : C₁ = (L.filter (fun w => decide (scoreF w = v))).map
        (fun w => (w, scoreF w)) ++
        R.filter (fun x : String × Int => decide (x.2 = v)) := by
      rw [hC₁, hG₁]
      rw [pySortDesc_filter_class (fun x : String × Int => x.2) v]
      rw [List.filter_append, filter_sndeq_map_pair]
    have hCd₂ : C₂ = ((pySortDesc freqF L).filter
        (fun w => decide (scoreF w = v))).map (fun w => (w, scoreF w)) ++
        R.filter (fun x : String × Int => decide (x.2 = v)) := by
      rw [hC₂, hG₂]
      rw [pySortDesc_filter_class (fun x : String × Int => x.2) v]
      rw [List.filter_append, filter_sndeq_map_pair]
    set Lv₁ := L.filter (fun w => decide (scoreF w = v)) with hLv₁
    set Lv₂ := (pySortDesc freqF L).filter
      (fun w => decide (scoreF w = v)) with hLv₂
    set Rv := R.filter (fun x : String × Int => decide (x.2 = v)) with hRv
    have hlenLv : Lv₂.length = Lv₁.length := by
      rw [hLv₁, hLv₂]
      exact ((pySortDesc_perm freqF L).filter _).length_eq
    set ν := L.filter (fun w => decide (¬ w ∈ CL ∧ freqF w = v)) with hν
    have hν₁ : Lv₁.filter (fun w => decide (¬ w ∈ CL)) = ν := by
      rw [hLv₁, hν, List.filter_filter]
      apply List.filter_congr
      intro w _
      by_cases h1 : w ∈ CL
      · simp [h1]
      · simp [h1, hsc w h1]
    have hν₂ : Lv₂.filter (fun w => decide (¬ w ∈ CL)) = ν := by
      rw [hLv₂, hν, List.filter_filter]
      have hq : ∀ w, (decide (¬ w ∈ CL) && decide (scoreF w = v)) = true →
          freqF w = v := by
        intro w hw
        rcases (Bool.and_eq_true _ _).mp hw with ⟨hw1, hw2⟩
        have h1 : ¬ w ∈ CL := of_decide_eq_true hw1
        have h2 : scoreF w = v := of_decide_eq_true hw2
        rw [← hsc w h1]
        exact h2
      rw [pySortDesc_filter_sub freqF v L _ hq]
      apply List.filter_congr
      intro w _
      by_cases h1 : w ∈ CL
      · simp [h1]
      · simp [h1, hsc w h1]
    have hWeq : B₂.filter (fun x : String × Int => decide (¬ x.1 ∈ CL)) =
        B₁.filter (fun x : String × Int => decide (¬ x.1 ∈ CL)) := by
      rw [hB₁, hB₂]
      apply sorted_eq_of_filter_eq
        (sortedDesc_filter (sortedDesc_filter hs₂ _) _)
        (sortedDesc_filter (sortedDesc_filter hs₁ _) _)
      intro u
      rw [List.filter_filter, List.filter_filter,
        List.filter_filter, List.filter_filter]
      have hpt : ∀ (x : String × Int),
          ((decide (x.2 = u) && decide (¬ x.1 ∈ CL)) &&
            decide (v < x.2)) =
          ((decide (¬ x.1 ∈ CL) && decide (x.2 = u)) && decide (v < u)) := by
        intro x
        by_cases h2 : x.2 = u
        · rw [h2]
          cases hA : decide (¬ x.1 ∈ CL) <;> cases hB : decide (v < u) <;>
            simp [hA, hB]
        · simp [h2]
      rw [List.filter_congr (fun x _ => hpt x),
        List.filter_congr (fun x _ => hpt x),
        filter_and_const, filter_and_const]
      by_cases hvu : decide (v < u) = true
      · rw [if_pos hvu, if_pos hvu]
        exact (hcore u).symm
      · rw [if_neg hvu, if_neg hvu]
    set W' := (B₁.filter (fun x : String × Int =>
      decide (¬ x.1 ∈ CL))).map (fun x : String × Int => x.1) with hW'
    have hW3 : ∀ w ∈ L, ¬ w ∈ CL → v < freqF w → w ∈ W' := by
      intro w hwL hwnc hwv
      rw [hW']
      have hmemG : (w, scoreF w) ∈ G₁ := by
        rw [hG₁, mem_pySortDesc]
        exact List.mem_append_left _ (List.mem_map_of_mem _ hwL)
      have hv' : v < scoreF w := by
        rw [hsc w hwnc]
        exact hwv
      have hB : (w, scoreF w) ∈ B₁ := by
        rw [hB₁]
        exact List.mem_filter.mpr ⟨hmemG, by simpa using hv'⟩
      have hBf : (w, scoreF w) ∈ B₁.filter (fun x : String × Int =>
          decide (¬ x.1 ∈ CL)) :=
        List.mem_filter.mpr ⟨hB, by simpa using hwnc⟩
      exact List.mem_map_of_mem _ hBf
    by_cases hr : r ≤ Lv₁.length
    · have htkC₁ : C₁.take r =
          (Lv₁.take r).map (fun w => (w, scoreF w)) := by
        rw [hCd₁, List.take_append_eq_append_take]
        have h0 : r - (Lv₁.map (fun w => (w, scoreF w))).length = 0 := by
          rw [List.length_map]
          omega
        rw [h0, List.take_zero, List.append_nil, ← List.map_take]
      have htkC₂ : C₂.take r =
          (Lv₂.take r).map (fun w => (w, scoreF w)) := by
        rw [hCd₂, List.take_append_eq_append_take]
        have h0 : r - (Lv₂.map (fun w => (w, scoreF w))).length = 0 := by
          rw [List.length_map]
          omega
        rw [h0, List.take_zero, List.append_nil, ← List.map_take]
      obtain ⟨a, ha⟩ := filter_take_eq_take_filter
        (fun w => decide (¬ w ∈ CL)) Lv₁ r
      obtain ⟨b, hb⟩ := filter_take_eq_take_filter
        (fun w => decide (¬ w ∈ CL)) Lv₂ r
      have hT₁' : T₁ = W' ++ ν.take a := by
        rw [hT₁, hS₁, htke₁, List.map_append, List.filter_append]
        congr 1
        · rw [filter_noncur_map_fst, hW']
        · rw [htkC₁, map_fst_map_pair, ha, hν₁]
      have hT₂' : T₂ = W' ++ ν.take b := by
        rw [hT₂, hS₂, htke₂, List.map_append, List.filter_append]
        congr 1
        · rw [filter_noncur_map_fst, hW', hWeq]
        · rw [htkC₂, map_fst_map_pair, hb, hν₂]
      refine ⟨?_, ?_, W', v, a, b, hT₁', hT₂', hW3⟩
      · intro w hw
        rw [hS₁, htke₁, List.map_append] at hw
        rcases List.mem_append.mp hw with hwB | hwC
        · left
          rw [hS₂, htke₂, List.map_append]
          apply List.mem_append_left
          obtain ⟨x, hxB, hxw⟩ := List.mem_map.mp hwB
          refine List.mem_map.mpr ⟨x, ?_, hxw⟩
          rw [hB₂]
          rw [hB₁] at hxB
          exact (hG.filter _).mem_iff.mpr hxB
        · right
          rw [htkC₁, map_fst_map_pair] at hwC
          exact List.mem_of_mem_filter (List.mem_of_mem_take hwC)
      · intro w hw
        rw [hS₂, htke₂, List.map_append] at hw
        rcases List.mem_append.mp hw with hwB | hwC
        · left
          rw [hS₁, htke₁, List.map_append]
          apply List.mem_append_left
          obtain ⟨x, hxB, hxw⟩ := List.mem_map.mp hwB
          refine List.mem_map.mpr ⟨x, ?_, hxw⟩
          rw [hB₁]
          rw [hB₂] at hxB
          exact (hG.filter _).mem_iff.mp hxB
        · right
          rw [htkC₂, map_fst_map_pair] at hwC
          have hwLv₂ : w ∈ Lv₂ := List.mem_of_mem_take hwC
          rw [hLv₂] at hwLv₂
          exact (mem_pySortDesc _ _ _).mp (List.mem_of_mem_filter hwLv₂)
    · push_neg at hr
      have htkC₁ : C₁.take r = Lv₁.map (fun w => (w, scoreF w)) ++
          Rv.take (r - Lv₁.length) := by
        rw [hCd₁, List.take_append_eq_append_take]
        rw [List.take_of_length_le (by rw [List.length_map]; omega)]
        rw [List.length_map]
      have htkC₂ : C₂.take r = Lv₂.map (fun w => (w, scoreF w)) ++
          Rv.take (r - Lv₁.length) := by
        rw [hCd₂, List.take_append_eq_append_take]
        rw [List.take_of_length_le (by rw [List.length_map]; omega)]
        rw [List.length_map, hlenLv]
      set Q := ((Rv.take (r - Lv₁.length)).map
        (fun x : String × Int => x.1)).filter
          (fun w => decide (¬ w ∈ CL)) with hQ
      have hT₁' : T₁ = W' ++ (ν ++ Q) := by
        rw [hT₁, hS₁, htke₁, List.map_append, List.filter_append]
        congr 1
        · rw [filter_noncur_map_fst, hW']
        · rw [htkC₁, List.map_append, List.filter_append,
            map_fst_map_pair, hν₁, hQ]
      have hT₂' : T₂ = W' ++ (ν ++ Q) := by
        rw [hT₂, hS₂, htke₂, List.map_append, List.filter_append]
        congr 1
        · rw [filter_noncur_map_fst, hW', hWeq]
        · rw [htkC₂, List.map_append, List.filter_append,
            map_fst_map_pair, hν₂, hQ]
      refine ⟨?_, ?_, W' ++ (ν ++ Q), v, 0, 0, by simpa using hT₁',
        by simpa using hT₂', ?_⟩
      · intro w hw
        rw [hS₁, htke₁, List.map_append] at hw
        rcases List.mem_append.mp hw with hwB | hwC
        · left
          rw [hS₂, htke₂, List.map_append]
          apply List.mem_append_left
          obtain ⟨x, hxB, hxw⟩ := List.mem_map.mp hwB
          refine List.mem_map.mpr ⟨x, ?_, hxw⟩
          rw [hB₂]
          rw [hB₁] at hxB
          exact (hG.filter _).mem_iff.mpr hxB
        · rw [htkC₁, List.map_append] at hwC
          rcases List.mem_append.mp hwC with hwLv | hwRv
          · right
            rw [map_fst_map_pair] at hwLv
            exact List.mem_of_mem_filter hwLv
          · left
            rw [hS₂, htke₂, List.map_append]
            apply List.mem_append_right
            rw [htkC₂, List.map_append]
            exact List.mem_append_right _ hwRv
      · intro w hw
        rw [hS₂, htke₂, List.map_append] at hw
        rcases List.mem_append.mp hw with hwB | hwC
        · left
          rw [hS₁, htke₁, List.map_append]
          apply List.mem_append_left
          obtain ⟨x, hxB, hxw⟩ := List.mem_map.mp hwB
          refine List.mem_map.mpr ⟨x, ?_, hxw⟩
          rw [hB₁]
          rw [hB₂] at hxB
          exact (hG.filter _).mem_iff.mp hxB
        · rw [htkC₂, List.map_append] at hwC
          rcases List.mem_append.mp hwC with hwLv | hwRv
          · right
            rw [map_fst_map_pair] at hwLv
            have hwLv₂ : w ∈ Lv₂ := hwLv
            rw [hLv₂] at hwLv₂
            exact (mem_pySortDesc _ _ _).mp (List.mem_of_mem_filter hwLv₂)
          · left
            rw [hS₁, htke₁, List.map_append]
            apply List.mem_append_right
            rw [htkC₁, List.map_append]
            exact List.mem_append_right _ hwRv
      · intro w hwL hwnc hwv
        exact List.mem_append_left _ (hW3 w hwL hwnc hwv)


/-! ### Set-directed extension of steps 4 and 5, and news absorption
(for C3) -/

theorem news_drop_seen (s u w : List String) (h : ∀ x ∈ u, x ∈ s) :
    news s (u ++ w) = news s w := by
  rw [news_append, news_nil_of_subset u s h, List.append_nil,
    List.nil_append]

theorem news_xtr_le (σ CL L : List String) (freqF : String → Int) (v : Int)
    (a m : Nat)
    (hCL : ∀ w ∈ CL, w ∈ σ)
    (hhi : ∀ w ∈ L, ¬ w ∈ CL → v < freqF w → w ∈ σ)
    (hseen : ∀ w ∈ (L.filter
      (fun w => decide (¬ w ∈ CL ∧ freqF w = v))).take a, w ∈ σ) :
    ∃ Z, news σ (((L.filter
      (fun w => decide (¬ w ∈ CL ∧ freqF w = v))).drop a).take m) ++ Z =
      news σ (pySortDesc freqF L) := by
  have hsorted : SortedDesc freqF (pySortDesc freqF L) :=
    pySortDesc_sorted _ _
  have hsp := sorted_three_split v hsorted
  have hBfseen : ∀ x ∈ (pySortDesc freqF L).filter
      (fun z => decide (v < freqF z)), x ∈ σ := by
    intro x hx
    rcases List.mem_filter.mp hx with ⟨hxs, hxp⟩
    have hxL : x ∈ L := (mem_pySortDesc _ _ _).mp hxs
    have hxv : v < freqF x := of_decide_eq_true hxp
    by_cases hc : x ∈ CL
    · exact hCL x hc
    · exact hhi x hxL hc hxv
  have h1 : news σ (pySortDesc freqF L) =
      news σ ((pySortDesc freqF L).filter
          (fun z => decide (freqF z = v)) ++
        (pySortDesc freqF L).filter (fun z => decide (freqF z < v))) := by
    conv_lhs => rw [hsp]
    rw [List.append_assoc]
    exact news_drop_seen σ _ _ hBfseen
  have hFv : (pySortDesc freqF L).filter (fun z => decide (freqF z = v)) =
      L.filter (fun z => decide (freqF z = v)) :=
    pySortDesc_filter_class freqF v L
  have hν' : (L.filter (fun z => decide (freqF z = v))).filter
      (fun x => decide (¬ x ∈ CL)) =
      L.filter (fun w => decide (¬ w ∈ CL ∧ freqF w = v)) := by
    rw [List.filter_filter]
    apply List.filter_congr
    intro w _
    by_cases h1 : w ∈ CL
    · simp [h1]
    · simp [h1]
  have h2 : news σ (L.filter (fun z => decide (freqF z = v))) =
      news σ (L.filter (fun w => decide (¬ w ∈ CL ∧ freqF w = v))) := by
    rw [← hν']
    exact (news_filter_seen _ σ CL hCL).symm
  have h3 : news σ (L.filter (fun w => decide (¬ w ∈ CL ∧ freqF w = v))) =
      news σ ((L.filter
        (fun w => decide (¬ w ∈ CL ∧ freqF w = v))).drop a) := by
    conv_lhs => rw [← List.take_append_drop a
      (L.filter (fun w => decide (¬ w ∈ CL ∧ freqF w = v)))]
    exact news_drop_seen σ _ _ hseen
  have h4 : news σ ((L.filter
      (fun w => decide (¬ w ∈ CL ∧ freqF w = v))).drop a) =
      news σ (((L.filter
        (fun w => decide (¬ w ∈ CL ∧ freqF w = v))).drop a).take m) ++
      news (σ ++ news σ (((L.filter
        (fun w => decide (¬ w ∈ CL ∧ freqF w = v))).drop a).take m))
        (((L.filter
          (fun w => decide (¬ w ∈ CL ∧ freqF w = v))).drop a).drop m) := by
    conv_lhs => rw [← List.take_append_drop m
      ((L.filter (fun w => decide (¬ w ∈ CL ∧ freqF w = v))).drop a)]
    exact news_append _ _ _
  rw [h1, news_append, hFv, h2, h3, h4]
  exact ⟨_, (List.append_assoc _ _ _).symm⟩

def SameSet (c₁ c₂ : List String) : Prop := ∀ x, x ∈ c₁ ↔ x ∈ c₂

theorem sameSet_append (c₁ c₂ δ : List String) (h : SameSet c₁ c₂) :
    SameSet (c₁ ++ δ) (c₂ ++ δ) := by
  intro x
  simp only [List.mem_append]
  rw [h x]

theorem appendIfNew_pair (c₁ c₂ : List String) (h : SameSet c₁ c₂)
    (w : String) :
    ∃ δ, appendIfNew c₁ w = c₁ ++ δ ∧ appendIfNew c₂ w = c₂ ++ δ := by
  unfold appendIfNew
  by_cases hw : w ∈ c₁
  · have hw₂ : w ∈ c₂ := (h w).mp hw
    exact ⟨[], by simp [hw], by simp [hw₂]⟩
  · have hw₂ : ¬ w ∈ c₂ := fun hc => hw ((h w).mpr hc)
    exact ⟨[w], by simp [hw], by simp [hw₂]⟩

theorem foldl_pair {β : Type} (g : List String → β → List String)
    (hg : ∀ c₁ c₂ b, SameSet c₁ c₂ →
      ∃ δ, g c₁ b = c₁ ++ δ ∧ g c₂ b = c₂ ++ δ) :
    ∀ (l : List β) (c₁ c₂ : List String), SameSet c₁ c₂ →
      ∃ E, l.foldl g c₁ = c₁ ++ E ∧ l.foldl g c₂ = c₂ ++ E
  | [], c₁, c₂, _ => ⟨[], by simp, by simp⟩
  | b :: l', c₁, c₂, h => by
    obtain ⟨δ, hδ₁, hδ₂⟩ := hg c₁ c₂ b h
    obtain ⟨E, hE₁, hE₂⟩ := foldl_pair g hg l' (c₁ ++ δ) (c₂ ++ δ)
      (sameSet_append c₁ c₂ δ h)
    refine ⟨δ ++ E, ?_, ?_⟩
    · rw [List.foldl_cons, hδ₁, hE₁, List.append_assoc]
    · rw [List.foldl_cons, hδ₂, hE₂, List.append_assoc]

theorem step4Fold_pair (dm' : DictionaryManager)
    (groups : List (List String)) (c₁ c₂ : List String)
    (h : SameSet c₁ c₂) :
    ∃ E, step4Fold dm' groups c₁ = c₁ ++ E ∧
      step4Fold dm' groups c₂ = c₂ ++ E := by
  unfold step4Fold
  refine foldl_pair _ ?_ groups c₁ c₂ h
  intro d₁ d₂ grp hd
  refine foldl_pair _ ?_ grp d₁ d₂ hd
  intro e₁ e₂ ch he
  cases dm'.lookup ch with
  | none => exact ⟨[], by simp, by simp⟩
  | some hl =>
    by_cases hhe : hl = []
    · exact ⟨[], by simp [hhe], by simp [hhe]⟩
    · dsimp only
      rw [if_neg hhe, if_neg hhe]
      exact foldl_pair appendIfNew
        (fun a b w hab => appendIfNew_pair a b hab w) hl e₁ e₂ he

theorem step5Fold_pair (s : String) (c₁ c₂ : List String)
    (h : SameSet c₁ c₂) :
    ∃ E, step5Fold s c₁ = c₁ ++ E ∧ step5Fold s c₂ = c₂ ++ E := by
  unfold step5Fold
  cases dictFind? common_mappings s with
  | none => exact ⟨[], by simp, by simp⟩
  | some ws =>
    exact foldl_pair appendIfNew
      (fun a b w hab => appendIfNew_pair a b hab w) ws c₁ c₂ h

theorem news_tail_eq
    (σ₀ : List String) (Tsh Tlo : List String) (DE : List String)
    (CL L : List String) (freqF : String → Int) (v : Int) (a b : Nat)
    (hab : a ≤ b) (W' : List String)
    (hTsh : Tsh = W' ++ (L.filter
      (fun w => decide (¬ w ∈ CL ∧ freqF w = v))).take a)
    (hTlo : Tlo = W' ++ (L.filter
      (fun w => decide (¬ w ∈ CL ∧ freqF w = v))).take b)
    (hDE : ∃ rest, DE = pySortDesc freqF L ++ rest)
    (hCL : ∀ w ∈ CL, w ∈ σ₀)
    (hhi : ∀ w ∈ L, ¬ w ∈ CL → v < freqF w → w ∈ W') :
    news σ₀ Tlo ++ news (σ₀ ++ news σ₀ Tlo) DE =
      news σ₀ Tsh ++ news (σ₀ ++ news σ₀ Tsh) DE := by
  have hsplitν : (L.filter
      (fun w => decide (¬ w ∈ CL ∧ freqF w = v))).take b =
      (L.filter (fun w => decide (¬ w ∈ CL ∧ freqF w = v))).take a ++
      ((L.filter
        (fun w => decide (¬ w ∈ CL ∧ freqF w = v))).drop a).take (b - a) := by
    conv_lhs => rw [show b = a + (b - a) by omega]
    exact List.take_add _ _ _
  have hsplit : Tlo = Tsh ++
      ((L.filter
        (fun w => decide (¬ w ∈ CL ∧ freqF w = v))).drop a).take (b - a) := by
    rw [hTlo, hsplitν, hTsh, List.append_assoc]
  have hTmem : ∀ w ∈ Tsh, w ∈ σ₀ ++ news σ₀ Tsh := by
    intro w hw
    by_cases hσ : w ∈ σ₀
    · exact List.mem_append_left _ hσ
    · exact List.mem_append_right _ ((mem_news Tsh σ₀ w).mpr ⟨hw, hσ⟩)
  have hCLσ : ∀ w ∈ CL, w ∈ σ₀ ++ news σ₀ Tsh :=
    fun w hw => List.mem_append_left _ (hCL w hw)
  have hhiσ : ∀ w ∈ L, ¬ w ∈ CL → v < freqF w →
      w ∈ σ₀ ++ news σ₀ Tsh := by
    intro w hwL hwc hwv
    exact hTmem w (hTsh ▸ List.mem_append_left _ (hhi w hwL hwc hwv))
  have hseenσ : ∀ w ∈ (L.filter
      (fun w => decide (¬ w ∈ CL ∧ freqF w = v))).take a,
      w ∈ σ₀ ++ news σ₀ Tsh := by
    intro w hw
    exact hTmem w (hTsh ▸ List.mem_append_right _ hw)
  obtain ⟨rest, hrest⟩ := hDE
  have hpre : ∃ Z, news (σ₀ ++ news σ₀ Tsh)
      (((L.filter
        (fun w => decide (¬ w ∈ CL ∧ freqF w = v))).drop a).take (b - a)) ++
      Z = news (σ₀ ++ news σ₀ Tsh) DE := by
    obtain ⟨Z, hZ⟩ := news_xtr_le (σ₀ ++ news σ₀ Tsh) CL L freqF v a (b - a)
      hCLσ hhiσ hseenσ
    refine ⟨Z ++ news ((σ₀ ++ news σ₀ Tsh) ++
      news (σ₀ ++ news σ₀ Tsh) (pySortDesc freqF L)) rest, ?_⟩
    rw [hrest, news_append, ← List.append_assoc, hZ]
  rw [hsplit, news_append]
  rw [show σ₀ ++ (news σ₀ Tsh ++ news (σ₀ ++ news σ₀ Tsh)
      (((L.filter
        (fun w => decide (¬ w ∈ CL ∧ freqF w = v))).drop a).take (b - a))) =
    (σ₀ ++ news σ₀ Tsh) ++ news (σ₀ ++ news σ₀ Tsh)
      (((L.filter
        (fun w => decide (¬ w ∈ CL ∧ freqF w = v))).drop a).take (b - a))
    from (List.append_assoc _ _ _).symm]
  rw [List.append_assoc (news σ₀ Tsh)]
  congr 1
  rw [← news_append]
  exact news_absorb _ _ _ hpre


/-- C3: idempotence and determinism of ranking.  For a fixed engine state
and input string, calling `get_candidates` twice in succession — the second
call running on the engine state left behind by the first (whose step 3
sorted `word_dict[s]` in place) — produces the identical ordered candidate
list. -/
theorem get_candidates_idempotent (e : PinyinEngine) (s : String) :
    ((e.get_candidates s).2.get_candidates s).1 = (e.get_candidates s).1 := by
  by_cases hs : s = ""
  · subst hs
    simp [PinyinEngine.get_candidates]
  · cases hlk : e.dict_manager.lookup s with
    | none =>
      have he : (e.get_candidates s).2 = e := by
        simp only [PinyinEngine.get_candidates, if_neg hs]
        rw [dm_gc_none e.dict_manager s (-1) hlk]
      rw [he]
    | some L =>
      have heq := dm_gc_some e.dict_manager s L hlk
      set sorted := pySortDesc
        (fun h => e.dict_manager.get_word_frequency h s) L with hsorted
      set dm₂ := e.dict_manager.setWords s sorted with hdm₂v
      set D := sorted ++ (pySortDesc (fun hv : String × Int => hv.2)
        (pfxMatches dm₂ s sorted)).map (fun hv : String × Int => hv.1)
        with hDdef
      have hidem2 : dm₂.get_candidates s (-1) = (D, dm₂) := by
        have h := dm_get_candidates_idem e.dict_manager s
        rw [heq] at h
        exact h
      have hfr : ∀ h k, dm₂.get_word_frequency h k =
          e.dict_manager.get_word_frequency h k := fun h k => rfl
      have hlkne : ∀ k, k ≠ s → dm₂.lookup k = e.dict_manager.lookup k :=
        fun k hk => lookup_setWords_ne e.dict_manager s sorted k hk
      have hlks : dm₂.lookup s = some sorted :=
        lookup_setWords_self e.dict_manager s L sorted hlk
      have hcs : s.data ≠ [] := by
        intro h
        apply hs
        cases s
        simp_all
      have hsc : ∀ w, ¬ w ∈ ((dictFind? common_phrases s).getD []) →
          PinyinEngine.get_word_score e.dict_manager w s =
          e.dict_manager.get_word_frequency w s := by
        intro w hw
        unfold PinyinEngine.get_word_score
        cases hcp : dictFind? common_phrases s with
        | none => rfl
        | some l =>
          rw [hcp] at hw
          simp only [Option.getD_some] at hw
          simp [hw]
      have hseg₁ := segment_take_form e s hs L hlk
      have hseg₂ : PinyinEngine.segment { e with dict_manager := dm₂ } s =
          ((pySortDesc (fun x : String × Int => x.2)
            (sorted.map (fun w =>
              (w, PinyinEngine.get_word_score e.dict_manager w s)) ++
              cellTail e.dict_manager s.data)).take 30).map
            (fun x : String × Int => x.1) := by
        have h := segment_take_form { e with dict_manager := dm₂ } s hs
          sorted hlks
        dsimp only at h
        rw [h]
        rw [cellTail_dm_congr e.dict_manager dm₂ s.data hfr
          (fun k hk => hlkne k hk) hcs]
        rw [show (fun w => (w, PinyinEngine.get_word_score dm₂ w s)) =
          (fun w => (w, PinyinEngine.get_word_score e.dict_manager w s))
          from funext fun w => by
            rw [get_word_score_congr e.dict_manager dm₂ hfr]]
      obtain ⟨hcov₁, hcov₂, W', v, a, b, hTd₁, hTd₂, hW3⟩ :=
        seg_take_masked_decomp L (cellTail e.dict_manager s.data)
          ((dictFind? common_phrases s).getD [])
          (fun h => e.dict_manager.get_word_frequency h s)
          (fun w => PinyinEngine.get_word_score e.dict_manager w s)
          (fun w hw => hsc w hw)
          (pySortDesc (fun x : String × Int => x.2)
            (L.map (fun w =>
              (w, PinyinEngine.get_word_score e.dict_manager w s)) ++
              cellTail e.dict_manager s.data))
          (pySortDesc (fun x : String × Int => x.2)
            (sorted.map (fun w =>
              (w, PinyinEngine.get_word_score e.dict_manager w s)) ++
              cellTail e.dict_manager s.data))
          _ _ _ _
          rfl (by rw [hsorted]) rfl rfl rfl rfl
      have hCLσ₀ : ∀ w ∈ (dictFind? common_phrases s).getD [],
          w ∈ news [] ((dictFind? common_phrases s).getD []) := by
        intro w hw
        exact (mem_news _ [] w).mpr ⟨hw, by simp⟩
      have hX₁ : (e.get_candidates s).1 =
          dedupFirst (step5Fold s (step4Fold dm₂ (e.pypinyinF s)
            ((dictFind? common_phrases s).getD [] ++ e.segment s ++ D))) := by
        simp only [PinyinEngine.get_candidates, if_neg hs]
        rw [heq]
      have hE2 : (e.get_candidates s).2 = { e with dict_manager := dm₂ } := by
        simp only [PinyinEngine.get_candidates, if_neg hs]
        rw [heq]
      have hX₂ : ((e.get_candidates s).2.get_candidates s).1 =
          dedupFirst (step5Fold s (step4Fold dm₂ (e.pypinyinF s)
            ((dictFind? common_phrases s).getD [] ++
              PinyinEngine.segment { e with dict_manager := dm₂ } s ++
              D))) := by
        rw [hE2]
        simp only [PinyinEngine.get_candidates, if_neg hs]
        rw [hidem2]
      rw [hX₁, hX₂, hseg₁, hseg₂]
      set P := (dictFind? common_phrases s).getD [] with hP
      set SX₁ := ((pySortDesc (fun x : String × Int => x.2)
        (L.map (fun w =>
          (w, PinyinEngine.get_word_score e.dict_manager w s)) ++
          cellTail e.dict_manager s.data)).take 30).map
        (fun x : String × Int => x.1) with hSX₁
      set SX₂ := ((pySortDesc (fun x : String × Int => x.2)
        (sorted.map (fun w =>
          (w, PinyinEngine.get_word_score e.dict_manager w s)) ++
          cellTail e.dict_manager s.data)).take 30).map
        (fun x : String × Int => x.1) with hSX₂
      have hLD : ∀ w ∈ L, w ∈ D := by
        intro w hw
        rw [hDdef]
        exact List.mem_append_left _ ((mem_pySortDesc _ _ _).mpr hw)
      have hsame : SameSet (P ++ SX₁ ++ D) (P ++ SX₂ ++ D) := by
        intro x
        simp only [List.mem_append]
        constructor
        · rintro ((hx | hx) | hx)
          · exact Or.inl (Or.inl hx)
          · rcases hcov₁ x hx with h | h
            · exact Or.inl (Or.inr h)
            · exact Or.inr (hLD x h)
          · exact Or.inr hx
        · rintro ((hx | hx) | hx)
          · exact Or.inl (Or.inl hx)
          · rcases hcov₂ x hx with h | h
            · exact Or.inl (Or.inr h)
            · exact Or.inr (hLD x h)
          · exact Or.inr hx
      obtain ⟨E₄, hE₄₁, hE₄₂⟩ := step4Fold_pair dm₂ (e.pypinyinF s)
        (P ++ SX₁ ++ D) (P ++ SX₂ ++ D) hsame
      obtain ⟨E₅, hE₅₁, hE₅₂⟩ := step5Fold_pair s
        (P ++ SX₁ ++ D ++ E₄) (P ++ SX₂ ++ D ++ E₄)
        (sameSet_append _ _ E₄ hsame)
      rw [hE₄₁, hE₄₂, hE₅₁, hE₅₂]
      rw [dedupFirst_eq_news, dedupFirst_eq_news]
      have hassoc : ∀ X : List String,
          ((P ++ X ++ D) ++ E₄) ++ E₅ = P ++ (X ++ (D ++ (E₄ ++ E₅))) := by
        intro X
        simp [List.append_assoc]
      rw [hassoc, hassoc]
      have hsplitX : ∀ X : List String,
          news [] (P ++ (X ++ (D ++ (E₄ ++ E₅)))) =
          news [] P ++ (news (news [] P) X ++
            news (news [] P ++ news (news [] P) X) (D ++ (E₄ ++ E₅))) := by
        intro X
        rw [news_append, news_append]
        simp only [List.nil_append]
      rw [hsplitX, hsplitX]
      congr 1
      have hm₁ : news (news [] P)
          (SX₁.filter (fun x => decide (¬ x ∈ P))) =
          news (news [] P) SX₁ :=
        news_filter_seen SX₁ (news [] P) P hCLσ₀
      have hm₂ : news (news [] P)
          (SX₂.filter (fun x => decide (¬ x ∈ P))) =
          news (news [] P) SX₂ :=
        news_filter_seen SX₂ (news [] P) P hCLσ₀
      rw [← hm₁, ← hm₂]
      have hDE : ∀ ab : List String,
          D ++ ab = pySortDesc
            (fun h => e.dict_manager.get_word_frequency h s) L ++
            ((pySortDesc (fun hv : String × Int => hv.2)
              (pfxMatches dm₂ s sorted)).map
                (fun hv : String × Int => hv.1) ++ ab) := by
        intro ab
        rw [hDdef, List.append_assoc, hsorted]
      rcases Nat.le_total a b with hab | hab
      · exact news_tail_eq (news [] P)
          (SX₁.filter (fun w => decide (¬ w ∈ P)))
          (SX₂.filter (fun w => decide (¬ w ∈ P)))
          (D ++ (E₄ ++ E₅)) P L
          (fun h => e.dict_manager.get_word_frequency h s) v a b hab W'
          hTd₁ hTd₂ ⟨_, hDE (E₄ ++ E₅)⟩ hCLσ₀ hW3
      · exact (news_tail_eq (news [] P)
          (SX₂.filter (fun w => decide (¬ w ∈ P)))
          (SX₁.filter (fun w => decide (¬ w ∈ P)))
          (D ++ (E₄ ++ E₅)) P L
          (fun h => e.dict_manager.get_word_frequency h s) v b a hab W'
          hTd₂ hTd₁ ⟨_, hDE (E₄ ++ E₅)⟩ hCLσ₀ hW3).symm

end TabTab
